import Mathlib

/-!
Shallow embedding of the text-analysis core of the visual-media-tool
repository (`src/vmt/analyzer.py` and `src/vmt/search.py`), together with
proofs about the embedded functions.  Characters are modelled over ASCII
(the inputs of all claims are ASCII); Python `float` scores are modelled
by `ℚ` (the claims never depend on rounding), Python dicts and Counters by
insertion-ordered association lists, and Python's stable `sorted` by a
stable insertion sort.
-/

namespace VMT

/-- ASCII model of the regex class `\s` (Python whitespace). -/
def pyIsSpace (c : Char) : Bool :=
  c = ' ' || c = '\t' || c = '\n' || c = '\x0d' || c = '\x0b' || c = '\x0c'

/-- Characters of `PUNCT_SPLIT = re.compile(r"[\s,;:()\[\].!?\-\/]+")`. -/
def isSplitChar (c : Char) : Bool :=
  pyIsSpace c || c = ',' || c = ';' || c = ':' || c = '(' || c = ')' ||
  c = '[' || c = ']' || c = '.' || c = '!' || c = '?' || c = '-' || c = '/'

/-- Accumulator pass collecting maximal runs of non-separator characters;
`acc` is the current run, reversed. -/
def splitRunsAux (sep : Char → Bool) : List Char → List Char → List (List Char)
  | [], acc => if acc = [] then [] else [acc.reverse]
  | c :: rest, acc =>
    if sep c then
      if acc = [] then splitRunsAux sep rest []
      else acc.reverse :: splitRunsAux sep rest []
    else splitRunsAux sep rest (c :: acc)

/-- Maximal runs of non-separator characters: `PUNCT_SPLIT.split(text)`
with the empty pieces dropped (the `if w` filter). -/
def splitRunsBy (sep : Char → Bool) (l : List Char) : List (List Char) :=
  splitRunsAux sep l []

/-- `[w for w in PUNCT_SPLIT.split(text) if w]` as strings. -/
def punctTokens (text : String) : List String :=
  (splitRunsBy isSplitChar text.toList).map List.asString

/-- `w.lower()` (ASCII model). -/
def pyLower (s : String) : String :=
  (s.toList.map Char.toLower).asString

/-- `w.upper()` (ASCII model). -/
def pyUpper (s : String) : String :=
  (s.toList.map Char.toUpper).asString

/-- The `STOPWORDS` set of `analyzer.py`. -/
def STOPWORDS : List String :=
  ["a", "an", "and", "the", "of", "on", "in", "by", "to", "with", "from",
   "or", "for", "at", "as", "is", "are", "was", "were", "be", "been",
   "being", "it", "this", "that", "those", "these", "you", "your", "yours",
   "we", "our", "ours", "they", "their", "theirs", "he", "she", "his",
   "her", "its", "i", "me", "my", "mine", "not", "no", "nor", "but", "if",
   "then", "than", "so", "such", "too", "very", "just"]

/-- One step of the `_candidate_phrases` loop body: the running buffer is
closed whenever a stopword is met. -/
def phraseStep (st : List (List String) × List String) (w : String) :
    List (List String) × List String :=
  if w ∈ STOPWORDS then
    if st.2 ≠ [] then (st.1 ++ [st.2], []) else st
  else (st.1, st.2 ++ [w])

/-- `_candidate_phrases(text)`. -/
def candidatePhrases (text : String) : List (List String) :=
  let words := (punctTokens text).map pyLower
  let st := words.foldl phraseStep ([], [])
  if st.2 ≠ [] then st.1 ++ [st.2] else st.1

/-- `Counter`/`defaultdict` model: `c[k] += n` (creates the key when it is
absent, also for `n = 0`, exactly like `Counter.__setitem__`). -/
def counterAdd (c : List (String × Nat)) (k : String) (n : Nat) :
    List (String × Nat) :=
  if c.any (fun p => p.1 = k) then
    c.map (fun p => if p.1 = k then (p.1, p.2 + n) else p)
  else c ++ [(k, n)]

/-- Python-dict model over `ℚ` values: assignment `d[k] = v` keeps the
insertion position of an existing key and appends a new key. -/
def dictUpd (d : List (String × ℚ)) (k : String) (v : ℚ) :
    List (String × ℚ) :=
  if d.any (fun p => p.1 = k) then
    d.map (fun p => if p.1 = k then (p.1, v) else p)
  else d ++ [(k, v)]

/-- Counter lookup `c[k]` without insertion (`0` when absent). -/
def counterGet (c : List (String × Nat)) (k : String) : Nat :=
  ((c.find? (fun p => p.1 = k)).map Prod.snd).getD 0

/-- `scores.get(w, 0)`. -/
def dictGetQ (d : List (String × ℚ)) (k : String) : ℚ :=
  ((d.find? (fun p => p.1 = k)).map Prod.snd).getD 0

/-- The freq/degree double loop of `_score_phrases`. -/
def scoreLoop (phrases : List (List String)) :
    List (String × Nat) × List (String × Nat) :=
  phrases.foldl
    (fun fd ph =>
      (ph.filter (fun w => w ≠ "")).foldl
        (fun fd w => (counterAdd fd.1 w 1, counterAdd fd.2 w (ph.length - 1)))
        fd)
    ([], [])

/-- `" ".join(ph)`: the elements separated by single spaces. -/
def joinSpace : List String → String
  | [] => ""
  | [w] => w
  | w :: ws => w ++ " " ++ joinSpace ws

/-- `scores = {w: (degree[w] + freq[w]) / (freq[w] or 1) for w in freq}`. -/
def wordScores (freq degree : List (String × Nat)) : List (String × ℚ) :=
  freq.map (fun p =>
    (p.1, ((counterGet degree p.1 + p.2 : ℕ) : ℚ) /
          ((if p.2 = 0 then 1 else p.2 : ℕ) : ℚ)))

/-- `_score_phrases(phrases)` as the insertion-ordered dict of
phrase-text ↦ phrase-score. -/
def scorePhrases (phrases : List (List String)) : List (String × ℚ) :=
  let fd := scoreLoop phrases
  let scores := wordScores fd.1 fd.2
  phrases.foldl
    (fun d ph =>
      dictUpd d (joinSpace ph) (ph.foldl (fun s w => s + dictGetQ scores w) 0))
    []

/-- Stable descending insertion: `x` goes in front of the first element
whose key is `≤` its own, so earlier elements win ties (Python `sorted`
is stable). -/
def insertDescBy (key : α → ℚ) (x : α) : List α → List α
  | [] => [x]
  | y :: ys => if key y ≤ key x then x :: y :: ys else y :: insertDescBy key x ys

/-- Stable sort, descending by `key`: model of
`sorted(items, key=..., reverse=True)`. -/
def sortDescBy (key : α → ℚ) (l : List α) : List α :=
  l.foldr (insertDescBy key) []

/-- `extract_keywords(text, top_k)`. -/
def extractKeywords (text : String) (top_k : Nat := 25) :
    List (String × ℚ) :=
  (sortDescBy Prod.snd (scorePhrases (candidatePhrases text))).take top_k

/-- The `COMMON_VERBS` set of `analyzer.py`. -/
def COMMON_VERBS : List String :=
  ["cut", "run", "walk", "talk", "look", "see", "watch", "drive", "type",
   "scroll", "shoot", "cook", "eat", "drink", "dance", "sing", "cry",
   "laugh", "argue", "fight", "open", "close", "enter", "exit", "hold",
   "push", "pull", "lift", "throw", "catch", "point", "think", "wait",
   "sit", "stand", "write", "wipe", "pour", "steam", "rise", "bloom",
   "glow", "drift", "click"]

/-- `w.endswith("ing")`. -/
def endsIng (w : String) : Bool :=
  w.toList.reverse.take 3 = ['g', 'n', 'i']

/-- `Counter(iterable)`: multiplicity counts in first-occurrence order. -/
def counterOf (ws : List String) : List (String × Nat) :=
  ws.foldl (fun c w => counterAdd c w 1) []

/-- `Counter.most_common(n)`: stable descending sort by count, first `n`. -/
def mostCommon (c : List (String × Nat)) (n : Nat) : List (String × Nat) :=
  (sortDescBy (fun p => (p.2 : ℚ)) c).take n

/-- `extract_actions(text, max_n)`. -/
def extractActions (text : String) (max_n : Nat := 20) : List String :=
  let words := (punctTokens text).map pyLower
  let counts := counterOf
    (words.filter (fun w => w ∈ COMMON_VERBS || endsIng w))
  (mostCommon counts max_n).map Prod.fst

/-- The `EMOTION_LEX` dict in its insertion order. -/
def EMOTION_LEX : List (String × List String) :=
  [("happy", ["joy", "happy", "cheer", "delight", "optimistic", "hopeful"]),
   ("sad", ["sad", "melancholy", "bittersweet", "lonely", "regret"]),
   ("angry", ["angry", "rage", "furious", "irritated", "frustrated"]),
   ("fear", ["fear", "anxious", "afraid", "tense", "worried"]),
   ("surprise", ["surprise", "shocked", "unexpected"]),
   ("calm", ["calm", "peaceful", "serene", "relaxed"]),
   ("romance", ["love", "romantic", "tender"]),
   ("hope", ["hope", "hopeful", "aspire"])]

/-- Python substring containment `k in t`. -/
def pyIn (k t : String) : Bool :=
  decide (k.toList <:+: t.toList)

/-- The fixed canonical ordering of `extract_emotions`. -/
def EMOTION_ORDER : List String :=
  ["happy", "calm", "hope", "romance", "surprise", "fear", "sad", "angry"]

/-- Whether any trigger of `label` occurs in the lowercased text. -/
def emotionHit (t : String) (entry : String × List String) : Bool :=
  entry.2.any (fun k => pyIn k t)

/-- `extract_emotions(text)`. -/
def extractEmotions (text : String) : List String :=
  let t := pyLower text
  let hits := (EMOTION_LEX.filter (emotionHit t)).map Prod.fst
  EMOTION_ORDER.filter (fun e => e ∈ hits)

/-! ### Entity extraction: model of
`ENTITY_PATTERN = re.compile(r"\b([A-Z][a-z]+(?:\s+[A-Z][a-z]+)*)\b")`
and `findall` over it (ASCII model of `[A-Z]`, `[a-z]`, `\s`, `\w`). -/

def isUpperCh (c : Char) : Bool := decide ('A' ≤ c ∧ c ≤ 'Z')

def isLowerCh (c : Char) : Bool := decide ('a' ≤ c ∧ c ≤ 'z')

def isDigitCh (c : Char) : Bool := decide ('0' ≤ c ∧ c ≤ '9')

/-- Word character for `\b` (ASCII `\w`). -/
def isWordCh (c : Char) : Bool :=
  isUpperCh c || isLowerCh c || isDigitCh c || c = '_'

/-- `\b` holds looking forward from the end of a word: end of input or a
non-word character. -/
def wordBoundary (s : List Char) : Bool :=
  match s with
  | [] => true
  | c :: _ => !isWordCh c

/-- One greedy iteration of `(?:\s+[A-Z][a-z]+)`: the consumed characters
and the remainder, or `none` when the iteration cannot match. -/
def matchIter (s : List Char) : Option (List Char × List Char) :=
  let ws := s.takeWhile pyIsSpace
  if ws = [] then none
  else
    match s.dropWhile pyIsSpace with
    | [] => none
    | c :: rest =>
      if isUpperCh c then
        let lows := rest.takeWhile isLowerCh
        if lows = [] then none
        else some (ws ++ c :: lows, rest.dropWhile isLowerCh)
      else none

theorem matchIter_some {s : List Char} {p : List Char × List Char}
    (h : matchIter s = some p) : p.1 ≠ [] ∧ s = p.1 ++ p.2 := by
  simp only [matchIter] at h
  split at h
  · cases h
  next hws =>
    split at h
    · cases h
    next c rest hd =>
      split at h
      next hu =>
        split at h
        · cases h
        next hl =>
          cases h
          refine ⟨by simp [hws], ?_⟩
          have h2 : rest = rest.takeWhile isLowerCh ++ rest.dropWhile isLowerCh :=
            (List.takeWhile_append_dropWhile _ _).symm
          conv_lhs =>
            rw [(List.takeWhile_append_dropWhile pyIsSpace s).symm, hd, h2]
          simp
      · cases h

theorem matchIter_some_length {s : List Char} {p : List Char × List Char}
    (h : matchIter s = some p) : p.2.length < s.length := by
  obtain ⟨hne, heq⟩ := matchIter_some h
  rw [heq, List.length_append]
  have : 0 < p.1.length := List.length_pos.mpr hne
  omega

/-- Greedy repetition of `matchIter`: the list of consumed iterations and
the remainder.  Structural recursion on a fuel counter; every successful
iteration consumes at least one character, so any fuel above the input
length never runs out. -/
def matchItersF : Nat → List Char → List (List Char) × List Char
  | 0, s => ([], s)
  | fuel + 1, s =>
    match matchIter s with
    | some p =>
      let r := matchItersF fuel p.2
      (p.1 :: r.1, r.2)
    | none => ([], s)

/-- `matchItersF` with always-sufficient fuel. -/
def matchIters (s : List Char) : List (List Char) × List Char :=
  matchItersF (s.length + 1) s

/-- A full match attempt of `ENTITY_PATTERN` at the current position.
`prevWord` states whether the previous character is a word character (for
the leading `\b`).  When the trailing `\b` fails directly after a word,
the regex engine backtracks by dropping the last `(?:\s+[A-Z][a-z]+)`
iteration, which leaves a whitespace character ahead; with no iteration
left the match attempt fails. -/
def matchEntityAt (prevWord : Bool) (s : List Char) :
    Option (List Char × List Char) :=
  if prevWord then none
  else
    match s with
    | [] => none
    | c :: rest =>
      if isUpperCh c then
        let lows := rest.takeWhile isLowerCh
        if lows = [] then none
        else
          let base := c :: lows
          let rest1 := rest.dropWhile isLowerCh
          let r := matchIters rest1
          if wordBoundary r.2 then some (base ++ r.1.flatten, r.2)
          else
            match r.1.getLast? with
            | none => none
            | some last => some (base ++ r.1.dropLast.flatten, last ++ r.2)
      else none

theorem matchItersF_decomp (fuel : Nat) : ∀ s : List Char,
    (matchItersF fuel s).1.flatten ++ (matchItersF fuel s).2 = s := by
  induction fuel with
  | zero => intro s; rfl
  | succ fuel ih =>
    intro s
    rw [matchItersF]
    cases h : matchIter s with
    | some p =>
      obtain ⟨-, heq⟩ := matchIter_some h
      dsimp only
      simp only [List.flatten_cons, List.append_assoc]
      rw [ih p.2, ← heq]
    | none => rfl

theorem matchIters_decomp (s : List Char) :
    (matchIters s).1.flatten ++ (matchIters s).2 = s :=
  matchItersF_decomp (s.length + 1) s

theorem matchEntityAt_some_length {b : Bool} {s : List Char}
    {p : List Char × List Char} (h : matchEntityAt b s = some p) :
    p.2.length < s.length := by
  simp only [matchEntityAt] at h
  split at h
  · cases h
  split at h
  · cases h
  next c rest =>
    split at h
    swap
    · cases h
    split at h
    · cases h
    next hl =>
      have hdec := matchIters_decomp (rest.dropWhile isLowerCh)
      have hlen : (rest.dropWhile isLowerCh).length ≤ rest.length :=
        (List.dropWhile_sublist _).length_le
      split at h
      · cases h
        have := congrArg List.length hdec
        simp only [List.length_append] at this
        simp only [List.length_cons]
        omega
      · split at h
        · cases h
        next last hlast =>
          cases h
          have hsplit : (matchIters (rest.dropWhile isLowerCh)).1.dropLast ++ [last] =
              (matchIters (rest.dropWhile isLowerCh)).1 :=
            List.dropLast_append_getLast? last (by simp [hlast, Option.mem_def])
          rw [← hsplit] at hdec
          have := congrArg List.length hdec
          simp only [List.flatten_append, List.flatten_cons, List.flatten_nil,
            List.append_nil, List.length_append] at this ⊢
          simp only [List.length_cons]
          omega

/-- `ENTITY_PATTERN.findall(text)`: scan left to right, restart one
character later on failure, continue after the consumed characters on
success.  Structural recursion on fuel; every step consumes at least one
character (`matchEntityAt_some_length`), so fuel above the input length
never runs out. -/
def findAllEntitiesF : Nat → Bool → List Char → List (List Char)
  | 0, _, _ => []
  | fuel + 1, prevWord, s =>
    match s with
    | [] => []
    | c :: rest =>
      match matchEntityAt prevWord (c :: rest) with
      | some p => p.1 :: findAllEntitiesF fuel true p.2
      | none => findAllEntitiesF fuel (isWordCh c) rest

/-- `findAllEntitiesF` with always-sufficient fuel. -/
def findAllEntities (prevWord : Bool) (s : List Char) : List (List Char) :=
  findAllEntitiesF (s.length + 1) prevWord s

/-- `e.strip()` (whitespace strip at both ends). -/
def pyStrip (s : String) : String :=
  (((s.toList.dropWhile pyIsSpace).reverse.dropWhile pyIsSpace).reverse).asString

/-- The denylist `ban` of `extract_entities`. -/
def ENTITY_BAN : List String := ["INT", "EXT", "DAY", "NIGHT"]

/-- Order-preserving dedupe (the `seen`/`ordered` loop). -/
def dedupe (l : List String) : List String :=
  l.foldl (fun acc e => if e ∈ acc then acc else acc ++ [e]) []

/-- `extract_entities(text, max_n)`. -/
def extractEntities (text : String) (max_n : Nat := 20) : List String :=
  let raw := (findAllEntities false text.toList).map List.asString
  let out := (raw.filter
    (fun e => ¬ pyUpper e ∈ ENTITY_BAN ∧ ¬ e.length < 3)).map pyStrip
  (dedupe out).take max_n

/-! ### Analysis aggregate and query builder -/

/-- The `Analysis` dataclass. -/
structure Analysis where
  keywords : List (String × ℚ)
  entities : List String
  actions : List String
  emotions : List String
  deriving DecidableEq

/-- `analyze_text(text)`. -/
def analyzeText (text : String) : Analysis :=
  { keywords := extractKeywords text
    entities := extractEntities text
    actions := extractActions text
    emotions := extractEmotions text }

/-- `len(q.split())`: Python `str.split()` with no argument splits on
whitespace runs and drops empty pieces. -/
def wordCount (q : String) : Nat :=
  (splitRunsBy pyIsSpace q.toList).length

/-- The `add(q)` helper of `build_queries`: append `q` when it is
non-empty, not yet present, and 1–6 words long. -/
def bqAdd (combos : List String) (q : String) : List String :=
  if q ≠ "" ∧ q ∉ combos ∧ 1 ≤ wordCount q ∧ wordCount q ≤ 6 then
    combos ++ [q]
  else combos

/-- The combination step: `add(f"{a} {k}")` guarded by
`if len(combos) >= limit: break` (the break leaves the inner loop only,
so each later inner iteration re-checks the cap and stops adding). -/
def bqCombine (limit : Nat) (actions shortTerms : List String)
    (combos : List String) : List String :=
  actions.foldl
    (fun cs a =>
      shortTerms.foldl
        (fun cs k => if limit ≤ cs.length then cs else bqAdd cs (a ++ " " ++ k))
        cs)
    combos

/-- `top_terms = [k for k,_ in analysis.keywords[:15]]`. -/
def bqTopTerms (analysis : Analysis) : List String :=
  (analysis.keywords.take 15).map Prod.fst

/-- `combos` after the keyword loop `for k in top_terms[:limit]: add(k)`. -/
def bqStage1 (analysis : Analysis) (limit : Nat) : List String :=
  ((bqTopTerms analysis).take limit).foldl bqAdd []

/-- `combos` after the entity loop `for e in analysis.entities[:4]: add(e)`. -/
def bqStage2 (analysis : Analysis) (limit : Nat) : List String :=
  (analysis.entities.take 4).foldl bqAdd (bqStage1 analysis limit)

/-- `short_terms = [k for k in top_terms[:6] if len(k.split()) <= 2]`. -/
def bqShortTerms (analysis : Analysis) : List String :=
  ((bqTopTerms analysis).take 6).filter (fun k => wordCount k ≤ 2)

/-- `combos` after the conditional combination step. -/
def bqStage3 (analysis : Analysis) (limit : Nat) : List String :=
  if (bqStage2 analysis limit).length < limit then
    bqCombine limit (analysis.actions.take 3) ((bqShortTerms analysis).take 3)
      (bqStage2 analysis limit)
  else bqStage2 analysis limit

/-- `build_queries(analysis, limit)`: the staged loop above followed by
`return combos[:limit]`. -/
def buildQueries (analysis : Analysis) (limit : Nat := 12) : List String :=
  (bqStage3 analysis limit).take limit

/-! ### Multi-provider fan-out (`search.py`) -/

/-- The `MediaResult` dataclass of `providers/base.py`. -/
structure MediaResult where
  provider : String
  query : String
  title : String
  url : String
  thumb : String
  media_type : String
  author : Option String := none
  license : Option String := none
  error : Bool := false
  duration : Option Nat := none
  deriving DecidableEq

/-- A provider as seen by `search_all`: its name together with the
outcome of `p.search(query, limit, media_type)` — a result list, or the
message of the exception it raises. -/
structure SearchProvider where
  name : String
  search : String → Nat → String → Except String (List MediaResult)

/-- The per-provider stub appended when a provider raises `e`:
`MediaResult(provider=p.name, query=query, title=f"[{p.name} error: {e}]",
url="#", thumb="", media_type=media_type, ..., extra={"error": True})`. -/
def errorStub (name : String) (query : String) (media_type : String)
    (e : String) : MediaResult :=
  { provider := name
    query := query
    title := "[" ++ name ++ " error: " ++ e ++ "]"
    url := "#"
    thumb := ""
    media_type := media_type
    author := none
    license := none
    error := true }

/-- `self.enabled.get(p.name, True)`. -/
def enabledGet (enabled : List (String × Bool)) (name : String) : Bool :=
  ((enabled.find? (fun p => p.1 = name)).map Prod.snd).getD true

/-- The body of the `for p in self.providers` loop of `search_all`:
skip a disabled provider, extend `results` with the provider's results,
or append the error stub when the provider raises. -/
def searchAllStep (enabled : List (String × Bool)) (query : String)
    (limit : Nat) (media_type : String) (results : List MediaResult)
    (p : SearchProvider) : List MediaResult :=
  if enabledGet enabled p.name then
    match p.search query limit media_type with
    | .ok provider_results => results ++ provider_results
    | .error e => results ++ [errorStub p.name query media_type e]
  else results

/-- `MediaSearcher.search_all(query, limit, media_type)` over the
searcher's provider list and enabled map. -/
def searchAll (providers : List SearchProvider)
    (enabled : List (String × Bool)) (query : String) (limit : Nat := 12)
    (media_type : String := "photo") : List MediaResult :=
  providers.foldl (searchAllStep enabled query limit media_type) []

/-! ## Theorems for the claims -/

/-- The scenario text shared by several claims. -/
def scenarioText : String :=
  "A barista wipes the counter. Steam rises. Hopeful mood."

/-- C2 (counterexample): contrary to the claim, the emotion extractor's
result on the scenario text DOES contain the label `"hope"`, because the
trigger `"hope"` of that label is a substring of `"hopeful"`. -/
theorem C2_counterexample : "hope" ∈ extractEmotions scenarioText := by decide

/-- C2 (amended): on the scenario text the emotion extractor returns
exactly `["happy", "hope"]`: it contains `"happy"` (trigger `"hopeful"`)
and also contains `"hope"` (its trigger `"hope"` occurs inside
`"hopeful"` under plain substring containment). -/
theorem C2_amended_emotions :
    extractEmotions scenarioText = ["happy", "hope"] ∧
    "happy" ∈ extractEmotions scenarioText := by decide

/-- C3 (counterexample): contrary to the claim, the action extractor's
result on the scenario text does NOT contain `"wipes"` — the closed verb
vocabulary lists only the stem `"wipe"`, and `"wipes"` does not end in
`"ing"`. -/
theorem C3_counterexample : "wipes" ∉ extractActions scenarioText := by decide

/-- C3 (amended): on the scenario text the action extractor returns
exactly `["steam"]`; `"wipes"` is excluded (only the stem `"wipe"` is in
the verb list) and `"rises"` is excluded as the claim states (it neither
ends in `"ing"` nor is in the verb list). -/
theorem C3_amended_actions :
    extractActions scenarioText = ["steam"] ∧
    "rises" ∉ extractActions scenarioText := by decide

/-! ### C7: empty and stopword-only inputs -/

theorem phraseFold_stopwords (l : List String) :
    ∀ acc : List (List String), (∀ w ∈ l, w ∈ STOPWORDS) →
      l.foldl phraseStep (acc, []) = (acc, []) := by
  induction l with
  | nil => intro acc _; rfl
  | cons w l ih =>
    intro acc h
    have hw : w ∈ STOPWORDS := h w (List.mem_cons_self w l)
    have hstep : phraseStep (acc, []) w = (acc, []) := by
      simp [phraseStep, hw]
    rw [List.foldl_cons, hstep]
    exact ih acc (fun x hx => h x (List.mem_cons_of_mem _ hx))

/-- C7: the empty input yields an Analysis with all four sequences empty,
`build_queries` on that Analysis is empty for every limit, and the
tokenizer yields no candidate phrase on empty text and on text whose
tokens are all stopwords. -/
theorem C7_empty_and_stopword_inputs :
    analyzeText "" = ⟨[], [], [], []⟩ ∧
    (∀ limit, buildQueries (analyzeText "") limit = []) ∧
    candidatePhrases "" = [] ∧
    (∀ t : String, (∀ w ∈ (punctTokens t).map pyLower, w ∈ STOPWORDS) →
      candidatePhrases t = []) := by
  have hempty : analyzeText "" = ⟨[], [], [], []⟩ := by decide
  refine ⟨hempty, ?_, by decide, ?_⟩
  · intro limit
    rw [hempty]
    simp [buildQueries, bqStage3, bqStage2, bqStage1, bqCombine, bqTopTerms,
      bqShortTerms]
  · intro t ht
    have h := phraseFold_stopwords ((punctTokens t).map pyLower) [] ht
    simp [candidatePhrases, h]

/-- C7 witness: the stopword-only part of C7 at a concrete input. -/
theorem C7_witness : candidatePhrases "The AND of" = [] :=
  C7_empty_and_stopword_inputs.2.2.2 "The AND of" (by decide)

/-! ### C8: per-provider failure isolation in the fan-out -/

/-- What one provider contributes to the `search_all` result list. -/
def providerContribution (enabled : List (String × Bool)) (query : String)
    (limit : Nat) (media_type : String) (p : SearchProvider) :
    List MediaResult :=
  if enabledGet enabled p.name then
    match p.search query limit media_type with
    | .ok provider_results => provider_results
    | .error e => [errorStub p.name query media_type e]
  else []

theorem searchAllStep_eq (enabled : List (String × Bool)) (query : String)
    (limit : Nat) (media_type : String) (results : List MediaResult)
    (p : SearchProvider) :
    searchAllStep enabled query limit media_type results p =
      results ++ providerContribution enabled query limit media_type p := by
  unfold searchAllStep providerContribution
  split
  · split <;> rfl
  · simp

theorem searchAll_foldl_acc (enabled : List (String × Bool)) (query : String)
    (limit : Nat) (media_type : String) :
    ∀ (ps : List SearchProvider) (acc : List MediaResult),
      ps.foldl (searchAllStep enabled query limit media_type) acc =
        acc ++ ps.flatMap (providerContribution enabled query limit media_type) := by
  intro ps
  induction ps with
  | nil => intro acc; simp
  | cons p ps ih =>
    intro acc
    rw [List.foldl_cons, searchAllStep_eq, ih]
    simp

theorem searchAll_eq_flatMap (providers : List SearchProvider)
    (enabled : List (String × Bool)) (query : String) (limit : Nat)
    (media_type : String) :
    searchAll providers enabled query limit media_type =
      providers.flatMap (providerContribution enabled query limit media_type) := by
  unfold searchAll
  rw [searchAll_foldl_acc]
  simp

/-- C8: if an enabled provider raises, `search_all` appends exactly the
error-flagged stub for it at that provider's position, and all other
enabled providers still contribute precisely what they would contribute
with the failing provider absent. -/
theorem C8_provider_failure_isolated (xs ys : List SearchProvider)
    (p : SearchProvider) (enabled : List (String × Bool))
    (query media_type : String) (limit : Nat) (e : String)
    (hen : enabledGet enabled p.name = true)
    (hfail : p.search query limit media_type = .error e) :
    searchAll (xs ++ p :: ys) enabled query limit media_type =
      searchAll xs enabled query limit media_type ++
      [errorStub p.name query media_type e] ++
      searchAll ys enabled query limit media_type ∧
    searchAll (xs ++ ys) enabled query limit media_type =
      searchAll xs enabled query limit media_type ++
      searchAll ys enabled query limit media_type := by
  have hp : providerContribution enabled query limit media_type p =
      [errorStub p.name query media_type e] := by
    unfold providerContribution
    rw [hen, hfail]
    rfl
  constructor
  · rw [searchAll_eq_flatMap, searchAll_eq_flatMap, searchAll_eq_flatMap,
      List.flatMap_append, List.flatMap_cons, hp]
    simp
  · rw [searchAll_eq_flatMap, searchAll_eq_flatMap, searchAll_eq_flatMap,
      List.flatMap_append]

/-- A provider that always fails, for the C8 witness. -/
def failingProvider : SearchProvider :=
  ⟨"pexels", fun _ _ _ => .error "connection refused"⟩

/-- A provider that returns one fixed result, for the C8 witness. -/
def okProvider : SearchProvider :=
  ⟨"pixabay", fun q _ mt =>
    .ok [{ provider := "pixabay", query := q, title := "t", url := "u",
           thumb := "th", media_type := mt }]⟩

/-- C8 witness: the theorem applied to a concrete failing provider
between two concrete healthy providers. -/
theorem C8_witness :
    searchAll [okProvider, failingProvider, okProvider] [] "dawn" 3 "photo" =
      searchAll [okProvider] [] "dawn" 3 "photo" ++
      [errorStub "pexels" "dawn" "photo" "connection refused"] ++
      searchAll [okProvider] [] "dawn" 3 "photo" :=
  (C8_provider_failure_isolated [okProvider] [okProvider] failingProvider []
    "dawn" "photo" 3 "connection refused" rfl rfl).1

/-! ### C9: frequencies are at least 1, the division guard is dead -/

theorem counterAdd_val_ge (c : List (String × Nat)) (k : String) (n : Nat)
    (hn : 1 ≤ n) (h : ∀ pr ∈ c, 1 ≤ pr.2) :
    ∀ pr ∈ counterAdd c k n, 1 ≤ pr.2 := by
  intro pr hpr
  unfold counterAdd at hpr
  split at hpr
  · obtain ⟨q, hq, hqe⟩ := List.mem_map.mp hpr
    by_cases hk : q.1 = k
    · rw [if_pos hk] at hqe
      rw [← hqe]
      exact le_trans (h q hq) (Nat.le_add_right _ _)
    · rw [if_neg hk] at hqe
      rw [← hqe]
      exact h q hq
  · rcases List.mem_append.mp hpr with hin | hin
    · exact h pr hin
    · simp only [List.mem_singleton] at hin
      subst hin
      exact hn

theorem scoreLoop_inner_freq_ge (ws : List String) (d : Nat) :
    ∀ fd : List (String × Nat) × List (String × Nat),
      (∀ pr ∈ fd.1, 1 ≤ pr.2) →
      ∀ pr ∈ (ws.foldl
        (fun fd w => (counterAdd fd.1 w 1, counterAdd fd.2 w d)) fd).1,
        1 ≤ pr.2 := by
  induction ws with
  | nil => intro fd h; exact h
  | cons w ws ih =>
    intro fd h
    rw [List.foldl_cons]
    exact ih _ (counterAdd_val_ge _ _ _ le_rfl h)

/-- C9: in `_score_phrases`, for every list of phrases, every entry of the
frequency Counter has value at least 1; consequently the `freq[w] or 1`
guard in the score dictionary is dead code (replacing the guarded divisor
by the bare frequency changes nothing) and every divisor is non-zero. -/
theorem C9_freq_ge_one_guard_dead (phrases : List (List String)) :
    (∀ pr ∈ (scoreLoop phrases).1, 1 ≤ pr.2 ∧ ((pr.2 : ℚ) ≠ 0)) ∧
    wordScores (scoreLoop phrases).1 (scoreLoop phrases).2 =
      (scoreLoop phrases).1.map (fun p =>
        (p.1, ((counterGet (scoreLoop phrases).2 p.1 + p.2 : ℕ) : ℚ) /
              ((p.2 : ℕ) : ℚ))) := by
  have hge : ∀ pr ∈ (scoreLoop phrases).1, 1 ≤ pr.2 := by
    unfold scoreLoop
    have haux : ∀ (phs : List (List String))
        (fd : List (String × Nat) × List (String × Nat)),
        (∀ pr ∈ fd.1, 1 ≤ pr.2) →
        ∀ pr ∈ (phs.foldl
          (fun fd ph => (ph.filter (fun w => w ≠ "")).foldl
            (fun fd w => (counterAdd fd.1 w 1, counterAdd fd.2 w (ph.length - 1)))
            fd) fd).1, 1 ≤ pr.2 := by
      intro phs
      induction phs with
      | nil => intro fd h; exact h
      | cons ph phs ih =>
        intro fd h
        rw [List.foldl_cons]
        exact ih _ (scoreLoop_inner_freq_ge _ _ fd h)
    exact haux phrases ([], []) (by intro pr hpr; cases hpr)
  constructor
  · intro pr hpr
    refine ⟨hge pr hpr, ?_⟩
    have := hge pr hpr
    exact Nat.cast_ne_zero.mpr (by omega)
  · unfold wordScores
    apply List.map_congr_left
    intro p hp
    have h1 : 1 ≤ p.2 := hge p hp
    have h2 : ¬ p.2 = 0 := by omega
    simp [h2]

/-- C9 witness: the theorem applied to a concrete phrase list and a
concrete frequency entry. -/
theorem C9_witness : 1 ≤ (("cat", 1) : String × ℕ).2 ∧
    (((("cat", 1) : String × ℕ).2 : ℚ) ≠ 0) :=
  (C9_freq_ge_one_guard_dead [["cat", "dog"]]).1 ("cat", 1) (by decide)

/-! ### C1 / C4: the query builder's cap, prefix stability and
keywords-first behaviour -/

theorem bqAdd_extend (cs : List String) (q : String) :
    bqAdd cs q = cs ∨ bqAdd cs q = cs ++ [q] := by
  unfold bqAdd
  split
  · exact Or.inr rfl
  · exact Or.inl rfl

theorem bqAdd_length_le (cs : List String) (q : String) :
    (bqAdd cs q).length ≤ cs.length + 1 := by
  rcases bqAdd_extend cs q with h | h <;> rw [h] <;> simp

theorem bqAdd_grows (cs : List String) (q : String) :
    cs <+: bqAdd cs q := by
  rcases bqAdd_extend cs q with h | h
  · rw [h]
  · rw [h]
    exact List.prefix_append cs [q]

/-- A fold whose step only ever appends only ever appends. -/
theorem foldl_extend {α : Type} {f : List String → α → List String}
    (hf : ∀ cs x, ∃ e, f cs x = cs ++ e) :
    ∀ (l : List α) (cs : List String), ∃ d, l.foldl f cs = cs ++ d := by
  intro l
  induction l with
  | nil => intro cs; exact ⟨[], by simp⟩
  | cons x l ih =>
    intro cs
    obtain ⟨e, he⟩ := hf cs x
    obtain ⟨d, hd⟩ := ih (f cs x)
    exact ⟨e ++ d, by rw [List.foldl_cons, hd, he, List.append_assoc]⟩

theorem bqAdd_foldl_extend (l : List String) (cs : List String) :
    ∃ d, l.foldl bqAdd cs = cs ++ d :=
  foldl_extend (fun cs q => by
    rcases bqAdd_extend cs q with h | h
    · exact ⟨[], by simp [h]⟩
    · exact ⟨[q], h⟩) l cs

/-- Appending pairwise-distinct fresh valid queries appends all of them. -/
theorem bqAdd_foldl_all_new (l : List String) :
    ∀ cs : List String,
      (∀ q ∈ l, q ≠ "" ∧ 1 ≤ wordCount q ∧ wordCount q ≤ 6) →
      l.Nodup → (∀ q ∈ l, q ∉ cs) →
      l.foldl bqAdd cs = cs ++ l := by
  induction l with
  | nil => intro cs _ _ _; simp
  | cons q l ih =>
    intro cs hvalid hnodup hfresh
    have hq := hvalid q (List.mem_cons_self q l)
    have hadd : bqAdd cs q = cs ++ [q] := by
      unfold bqAdd
      rw [if_pos ⟨hq.1, hfresh q (List.mem_cons_self q l), hq.2.1, hq.2.2⟩]
    rw [List.foldl_cons, hadd,
      ih (cs ++ [q]) (fun x hx => hvalid x (List.mem_cons_of_mem _ hx))
        (List.Nodup.of_cons hnodup)
        (fun x hx => by
          simp only [List.mem_append, List.mem_singleton, not_or]
          exact ⟨hfresh x (List.mem_cons_of_mem _ hx),
            fun he => (List.nodup_cons.mp hnodup).1 (he ▸ hx)⟩)]
    simp

theorem bqCombine_extend (limit : Nat) (as ss : List String)
    (cs : List String) : ∃ d, bqCombine limit as ss cs = cs ++ d := by
  unfold bqCombine
  refine foldl_extend (fun cs a => ?_) as cs
  refine foldl_extend (fun cs k => ?_) ss cs
  split
  · exact ⟨[], by simp⟩
  · rcases bqAdd_extend cs (a ++ " " ++ k) with h | h
    · exact ⟨[], by simp [h]⟩
    · exact ⟨[a ++ " " ++ k], h⟩

/-- `bqStage3` only extends `bqStage1`. -/
theorem bqStage3_extends_stage1 (a : Analysis) (limit : Nat) :
    ∃ d, bqStage3 a limit = bqStage1 a limit ++ d := by
  obtain ⟨d2, hd2⟩ := bqAdd_foldl_extend (a.entities.take 4) (bqStage1 a limit)
  unfold bqStage3
  split
  · obtain ⟨d3, hd3⟩ := bqCombine_extend limit (a.actions.take 3)
      ((bqShortTerms a).take 3) (bqStage2 a limit)
    exact ⟨d2 ++ d3, by
      rw [hd3]
      unfold bqStage2
      rw [hd2, List.append_assoc]⟩
  · exact ⟨d2, by unfold bqStage2 at *; rw [hd2]⟩

/-- When the first `N` top terms are valid and distinct, the keyword loop
emits exactly them. -/
theorem bqStage1_eq_take (a : Analysis) (N : Nat)
    (hvalid : ∀ q ∈ (bqTopTerms a).take N,
      q ≠ "" ∧ 1 ≤ wordCount q ∧ wordCount q ≤ 6)
    (hnodup : ((bqTopTerms a).take N).Nodup) :
    bqStage1 a N = (bqTopTerms a).take N := by
  unfold bqStage1
  rw [bqAdd_foldl_all_new _ [] hvalid hnodup (by simp)]
  simp

/-- Result of `build_queries` when the cap does not exceed the number of
valid distinct top terms: exactly the first `limit` top terms. -/
theorem buildQueries_of_le (a : Analysis) (N : Nat)
    (hvalid : ∀ q ∈ (bqTopTerms a).take N,
      q ≠ "" ∧ 1 ≤ wordCount q ∧ wordCount q ≤ 6)
    (hnodup : ((bqTopTerms a).take N).Nodup)
    (hN : N ≤ (bqTopTerms a).length) :
    buildQueries a N = (bqTopTerms a).take N := by
  obtain ⟨d, hd⟩ := bqStage3_extends_stage1 a N
  unfold buildQueries
  rw [hd, bqStage1_eq_take a N hvalid hnodup]
  exact List.take_left' (by rw [List.length_take]; omega)

/-- Invariant tying together two runs of the combination loop at caps
`N1 ≤ N2`: either the runs agree and are below the small cap, or the
small-cap run is full and a prefix of the other. -/
def BQInv (N1 : Nat) (cs1 cs2 : List String) : Prop :=
  (cs1 = cs2 ∧ cs1.length ≤ N1) ∨ (cs1 <+: cs2 ∧ cs1.length = N1)

theorem bqInv_step {N1 N2 : Nat} (h12 : N1 ≤ N2) {cs1 cs2 : List String}
    (h : BQInv N1 cs1 cs2) (q : String) :
    BQInv N1 (if N1 ≤ cs1.length then cs1 else bqAdd cs1 q)
             (if N2 ≤ cs2.length then cs2 else bqAdd cs2 q) := by
  rcases h with ⟨heq, hlen⟩ | ⟨hpre, hlen⟩
  · subst heq
    by_cases h1 : N1 ≤ cs1.length
    · have h1' : cs1.length = N1 := le_antisymm hlen h1
      rw [if_pos h1]
      by_cases h2 : N2 ≤ cs1.length
      · rw [if_pos h2]
        exact Or.inl ⟨rfl, hlen⟩
      · rw [if_neg h2]
        exact Or.inr ⟨bqAdd_grows cs1 q, h1'⟩
    · have h2 : ¬ N2 ≤ cs1.length := fun h2 => h1 (le_trans h12 h2)
      rw [if_neg h1, if_neg h2]
      exact Or.inl ⟨rfl, le_trans (bqAdd_length_le cs1 q) (by omega)⟩
  · have h1 : N1 ≤ cs1.length := le_of_eq hlen.symm
    rw [if_pos h1]
    by_cases h2 : N2 ≤ cs2.length
    · rw [if_pos h2]
      exact Or.inr ⟨hpre, hlen⟩
    · rw [if_neg h2]
      exact Or.inr ⟨hpre.trans (bqAdd_grows cs2 q), hlen⟩

theorem bqInv_innerFold {N1 N2 : Nat} (h12 : N1 ≤ N2) (a : String)
    (ss : List String) :
    ∀ cs1 cs2, BQInv N1 cs1 cs2 →
      BQInv N1
        (ss.foldl (fun cs k =>
          if N1 ≤ cs.length then cs else bqAdd cs (a ++ " " ++ k)) cs1)
        (ss.foldl (fun cs k =>
          if N2 ≤ cs.length then cs else bqAdd cs (a ++ " " ++ k)) cs2) := by
  induction ss with
  | nil => intro cs1 cs2 h; exact h
  | cons k ss ih =>
    intro cs1 cs2 h
    rw [List.foldl_cons, List.foldl_cons]
    exact ih _ _ (bqInv_step h12 h (a ++ " " ++ k))

theorem bqInv_combine {N1 N2 : Nat} (h12 : N1 ≤ N2) (as ss : List String) :
    ∀ cs1 cs2, BQInv N1 cs1 cs2 →
      BQInv N1 (bqCombine N1 as ss cs1) (bqCombine N2 as ss cs2) := by
  induction as with
  | nil => intro cs1 cs2 h; exact h
  | cons a as ih =>
    intro cs1 cs2 h
    unfold bqCombine at *
    rw [List.foldl_cons, List.foldl_cons]
    exact ih _ _ (bqInv_innerFold h12 a ss cs1 cs2 h)

theorem bqInv_take {N1 : Nat} {cs1 cs2 : List String}
    (h : BQInv N1 cs1 cs2) : cs2.take N1 = cs1.take N1 := by
  rcases h with ⟨heq, -⟩ | ⟨⟨r, hr⟩, hlen⟩
  · rw [heq]
  · rw [← hr, List.take_append_of_le_length (le_of_eq hlen.symm)]

/-- Prefix stability of `build_queries` when the (up to) 15 top keyword
phrase texts are pairwise distinct and each 1–6 words long. -/
theorem buildQueries_prefix_stable (a : Analysis) (N1 N2 : Nat)
    (h12 : N1 ≤ N2)
    (hvalid : ∀ q ∈ bqTopTerms a,
      q ≠ "" ∧ 1 ≤ wordCount q ∧ wordCount q ≤ 6)
    (hnodup : (bqTopTerms a).Nodup) :
    (buildQueries a N2).take N1 = buildQueries a N1 := by
  have hvalidN : ∀ N, ∀ q ∈ (bqTopTerms a).take N,
      q ≠ "" ∧ 1 ≤ wordCount q ∧ wordCount q ≤ 6 :=
    fun N q hq => hvalid q (List.mem_of_mem_take hq)
  have hnodupN : ∀ N, ((bqTopTerms a).take N).Nodup :=
    fun N => (List.take_sublist N (bqTopTerms a)).nodup hnodup
  by_cases hA : N1 ≤ (bqTopTerms a).length
  · -- the small-cap result is exactly the first N1 top terms
    rw [buildQueries_of_le a N1 (hvalidN N1) (hnodupN N1) hA]
    by_cases hB : N2 ≤ (bqTopTerms a).length
    · rw [buildQueries_of_le a N2 (hvalidN N2) (hnodupN N2) hB,
        List.take_take]
      congr 1
      omega
    · -- the large cap swallows all top terms
      have hT2 : (bqTopTerms a).take N2 = bqTopTerms a :=
        List.take_of_length_le (by omega)
      obtain ⟨d, hd⟩ := bqStage3_extends_stage1 a N2
      have h1 : bqStage1 a N2 = bqTopTerms a := by
        rw [bqStage1_eq_take a N2 (hvalidN N2) (hnodupN N2), hT2]
      unfold buildQueries
      rw [hd, h1, List.take_take, min_eq_left h12,
        List.take_append_of_le_length hA]
  · push_neg at hA
    -- both caps exceed the top terms: the keyword and entity stages agree
    have hT1 : (bqTopTerms a).take N1 = bqTopTerms a :=
      List.take_of_length_le (by omega)
    have hT2 : (bqTopTerms a).take N2 = bqTopTerms a :=
      List.take_of_length_le (by omega)
    have hs1 : bqStage1 a N1 = bqStage1 a N2 := by
      unfold bqStage1
      rw [hT1, hT2]
    have hs2 : bqStage2 a N1 = bqStage2 a N2 := by
      unfold bqStage2
      rw [hs1]
    set C := bqStage2 a N2 with hC
    by_cases h1 : C.length < N1
    · -- both runs enter the combination loop; use the invariant
      have h2 : C.length < N2 := by omega
      have hinv := bqInv_combine h12 (a.actions.take 3)
        ((bqShortTerms a).take 3) C C (Or.inl ⟨rfl, by omega⟩)
      unfold buildQueries bqStage3
      rw [hs2, if_pos h2, if_pos h1, List.take_take, min_eq_left h12,
        bqInv_take hinv]
    · -- the small cap is already reached before combining
      unfold buildQueries bqStage3
      rw [hs2, if_neg h1]
      by_cases h2 : C.length < N2
      · obtain ⟨d, hd⟩ := bqCombine_extend N2 (a.actions.take 3)
          ((bqShortTerms a).take 3) C
        rw [if_pos h2, hd, List.take_take, min_eq_left h12,
          List.take_append_of_le_length (by omega)]
      · rw [if_neg h2, List.take_take, min_eq_left h12]

/-- C1 (counterexample): prefix stability fails as soon as a top keyword
phrase is rejected by the 1–6-word filter — the rejected phrase consumes
a slot of the keyword loop only under the larger limit.  Here the first
keyword has 7 words, so `build_queries` with limit 1 returns `[]` while
the first entry under limit 2 is `"kite"`. -/
theorem C1_counterexample :
    ¬ ((buildQueries ⟨[("one two three four five six seven", 0), ("kite", 0)],
          [], [], []⟩ 2).take 1 =
       buildQueries ⟨[("one two three four five six seven", 0), ("kite", 0)],
          [], [], []⟩ 1) := by decide

/-- C1 (amended): `build_queries` always returns at most `N` entries; and
prefix stability for `N1 < N2` holds provided the top keyword phrase
texts (the first 15) are pairwise distinct and each 1–6 words long — the
condition the counterexample shows is necessary. -/
theorem C1_amended_cap_and_stability :
    (∀ (a : Analysis) (N : Nat), (buildQueries a N).length ≤ N) ∧
    (∀ (a : Analysis) (N1 N2 : Nat), N1 < N2 →
      (∀ q ∈ bqTopTerms a, q ≠ "" ∧ 1 ≤ wordCount q ∧ wordCount q ≤ 6) →
      (bqTopTerms a).Nodup →
      (buildQueries a N2).take N1 = buildQueries a N1) := by
  constructor
  · intro a N
    exact List.length_take_le N (bqStage3 a N)
  · intro a N1 N2 h12 hvalid hnodup
    exact buildQueries_prefix_stable a N1 N2 (le_of_lt h12) hvalid hnodup

/-- C1 witness: both parts of the amended claim at concrete inputs. -/
theorem C1_witness :
    (buildQueries ⟨[("sunrise", 5), ("ocean wave", 3)], ["Ent"], ["run"], []⟩
      3).length ≤ 3 ∧
    (buildQueries ⟨[("sunrise", 5), ("ocean wave", 3)], ["Ent"], ["run"], []⟩
      2).take 1 =
      buildQueries ⟨[("sunrise", 5), ("ocean wave", 3)], ["Ent"], ["run"], []⟩
        1 :=
  ⟨C1_amended_cap_and_stability.1 _ 3,
   C1_amended_cap_and_stability.2 _ 1 2 (by decide) (by decide) (by decide)⟩

/-- C4 (counterexample): the claim fails for limits above 15, because the
keyword loop only ever sees `analysis.keywords[:15]`: an Analysis with 16
distinct one-word high-score keywords and limit 16 yields only 15
entries, not the top 16 keyword phrases. -/
theorem C4_counterexample :
    ¬ (buildQueries
        ⟨[("a", 16), ("b", 15), ("c", 14), ("d", 13), ("e", 12), ("f", 11),
          ("g", 10), ("h", 9), ("i", 8), ("j", 7), ("k", 6), ("l", 5),
          ("m", 4), ("n", 3), ("o", 2), ("p", 1)], [], [], []⟩ 16 =
       ((⟨[("a", 16), ("b", 15), ("c", 14), ("d", 13), ("e", 12), ("f", 11),
          ("g", 10), ("h", 9), ("i", 8), ("j", 7), ("k", 6), ("l", 5),
          ("m", 4), ("n", 3), ("o", 2), ("p", 1)], [], [], []⟩ :
          Analysis).keywords.take 16).map Prod.fst) := by decide

/-- C4 (amended): for caps `N ≤ 15`, on any Analysis whose first `N`
keyword phrase texts are pairwise distinct and each 1–6 words long,
`build_queries` returns exactly the top `N` keyword phrases in rank
order — keywords fill the result before entities or combinations. -/
theorem C4_amended_keywords_first (a : Analysis) (N : Nat) (hN : N ≤ 15)
    (hlen : N ≤ a.keywords.length)
    (hvalid : ∀ q ∈ (a.keywords.map Prod.fst).take N,
      q ≠ "" ∧ 1 ≤ wordCount q ∧ wordCount q ≤ 6)
    (hnodup : ((a.keywords.map Prod.fst).take N).Nodup) :
    buildQueries a N = (a.keywords.take N).map Prod.fst := by
  have hTN : (bqTopTerms a).take N = (a.keywords.map Prod.fst).take N := by
    unfold bqTopTerms
    rw [List.map_take, List.take_take]
    congr 1
    omega
  have hA : N ≤ (bqTopTerms a).length := by
    unfold bqTopTerms
    rw [List.length_map, List.length_take]
    omega
  rw [buildQueries_of_le a N (hTN ▸ hvalid) (hTN ▸ hnodup) hA, hTN,
    List.map_take]

/-- C4 witness: the claim's own scenario — 20 high-score keywords and a
limit of 5 give exactly the top-5 keyword phrases. -/
theorem C4_witness :
    buildQueries
      ⟨[("w01", 20), ("w02", 19), ("w03", 18), ("w04", 17), ("w05", 16),
        ("w06", 15), ("w07", 14), ("w08", 13), ("w09", 12), ("w10", 11),
        ("w11", 10), ("w12", 9), ("w13", 8), ("w14", 7), ("w15", 6),
        ("w16", 5), ("w17", 4), ("w18", 3), ("w19", 2), ("w20", 1)],
        ["Studio"], ["run"], []⟩ 5 =
      ((⟨[("w01", 20), ("w02", 19), ("w03", 18), ("w04", 17), ("w05", 16),
        ("w06", 15), ("w07", 14), ("w08", 13), ("w09", 12), ("w10", 11),
        ("w11", 10), ("w12", 9), ("w13", 8), ("w14", 7), ("w15", 6),
        ("w16", 5), ("w17", 4), ("w18", 3), ("w19", 2), ("w20", 1)],
        ["Studio"], ["run"], []⟩ : Analysis).keywords.take 5).map Prod.fst :=
  C4_amended_keywords_first _ 5 (by decide) (by decide) (by decide) (by decide)

/-! ### C6: no-duplicate invariants of `analyze_text` -/

theorem foldl_preserve {α β : Type} {P : β → Prop} {f : β → α → β}
    (hf : ∀ b x, P b → P (f b x)) :
    ∀ (l : List α) (b : β), P b → P (l.foldl f b) := by
  intro l
  induction l with
  | nil => intro b h; exact h
  | cons x l ih => intro b h; exact ih (f b x) (hf b x h)

theorem any_eq_false_not_mem {γ : Type} (c : List (String × γ)) (k : String)
    (h : ¬ c.any (fun p => p.1 = k)) : k ∉ c.map Prod.fst := by
  intro hk
  obtain ⟨p, hp, hpk⟩ := List.mem_map.mp hk
  exact h (List.any_eq_true.mpr ⟨p, hp, by simp [hpk]⟩)

theorem dictUpd_keys_nodup (d : List (String × ℚ)) (k : String) (v : ℚ)
    (h : (d.map Prod.fst).Nodup) : ((dictUpd d k v).map Prod.fst).Nodup := by
  unfold dictUpd
  split
  · have heq : (d.map (fun p => if p.1 = k then (p.1, v) else p)).map Prod.fst =
        d.map Prod.fst := by
      rw [List.map_map]
      apply List.map_congr_left
      intro p _
      by_cases hp : p.1 = k
      · simp [hp]
      · simp [hp]
    rw [heq]
    exact h
  next hany =>
    rw [List.map_append]
    simp only [List.map_cons, List.map_nil]
    exact (List.perm_append_singleton k _).nodup_iff.mpr
      (List.nodup_cons.mpr ⟨any_eq_false_not_mem d k hany, h⟩)

theorem counterAdd_keys_nodup (c : List (String × Nat)) (k : String) (n : Nat)
    (h : (c.map Prod.fst).Nodup) : ((counterAdd c k n).map Prod.fst).Nodup := by
  unfold counterAdd
  split
  · have heq : (c.map (fun p => if p.1 = k then (p.1, p.2 + n) else p)).map Prod.fst =
        c.map Prod.fst := by
      rw [List.map_map]
      apply List.map_congr_left
      intro p _
      by_cases hp : p.1 = k
      · simp [hp]
      · simp [hp]
    rw [heq]
    exact h
  next hany =>
    rw [List.map_append]
    simp only [List.map_cons, List.map_nil]
    exact (List.perm_append_singleton k _).nodup_iff.mpr
      (List.nodup_cons.mpr ⟨any_eq_false_not_mem c k hany, h⟩)

theorem insertDescBy_perm {α : Type} (key : α → ℚ) (x : α) :
    ∀ l : List α, (insertDescBy key x l).Perm (x :: l) := by
  intro l
  induction l with
  | nil => exact List.Perm.refl [x]
  | cons y ys ih =>
    unfold insertDescBy
    split
    · exact List.Perm.refl _
    · exact (ih.cons y).trans (List.Perm.swap x y ys)

theorem sortDescBy_perm {α : Type} (key : α → ℚ) :
    ∀ l : List α, (sortDescBy key l).Perm l := by
  intro l
  induction l with
  | nil => exact List.Perm.refl []
  | cons a l ih =>
    have : sortDescBy key (a :: l) = insertDescBy key a (sortDescBy key l) := rfl
    rw [this]
    exact (insertDescBy_perm key a (sortDescBy key l)).trans (ih.cons a)

theorem scorePhrases_keys_nodup (phrases : List (List String)) :
    ((scorePhrases phrases).map Prod.fst).Nodup := by
  unfold scorePhrases
  apply foldl_preserve
    (P := fun d : List (String × ℚ) => (d.map Prod.fst).Nodup)
  · intro d ph h
    exact dictUpd_keys_nodup d (joinSpace ph) _ h
  · simp

theorem counterOf_keys_nodup (ws : List String) :
    ((counterOf ws).map Prod.fst).Nodup := by
  unfold counterOf
  apply foldl_preserve
    (P := fun c : List (String × Nat) => (c.map Prod.fst).Nodup)
  · intro c w h
    exact counterAdd_keys_nodup c w 1 h
  · simp

theorem dedupe_nodup (l : List String) : (dedupe l).Nodup := by
  unfold dedupe
  apply foldl_preserve (P := fun acc : List String => acc.Nodup)
  · intro acc e h
    split
    · exact h
    next he =>
      exact (List.perm_append_singleton e _).nodup_iff.mpr
        (List.nodup_cons.mpr ⟨he, h⟩)
  · exact List.nodup_nil

theorem extractKeywords_keys_nodup (text : String) (top_k : Nat) :
    ((extractKeywords text top_k).map Prod.fst).Nodup := by
  unfold extractKeywords
  have hperm := sortDescBy_perm (Prod.snd)
    (scorePhrases (candidatePhrases text))
  have hnod : ((sortDescBy Prod.snd
      (scorePhrases (candidatePhrases text))).map Prod.fst).Nodup :=
    ((hperm.map Prod.fst).nodup_iff).mpr (scorePhrases_keys_nodup _)
  exact ((List.take_sublist _ _).map Prod.fst).nodup hnod

theorem extractActions_nodup (text : String) (max_n : Nat) :
    (extractActions text max_n).Nodup := by
  unfold extractActions mostCommon
  have hperm := sortDescBy_perm (fun p : String × Nat => (p.2 : ℚ))
    (counterOf (((punctTokens text).map pyLower).filter
      (fun w => w ∈ COMMON_VERBS || endsIng w)))
  have hnod := ((hperm.map Prod.fst).nodup_iff).mpr (counterOf_keys_nodup _)
  exact ((List.take_sublist _ _).map Prod.fst).nodup hnod

/-- C6: on every input, the keyword phrase texts, entities and actions of
the Analysis contain no duplicates; the emotions are a subsequence of the
fixed canonical label order; and the emotions depend only on which
lexicon entries matched, not on where or in which order their triggers
appear in the text. -/
theorem C6_analysis_invariants (t : String) :
    ((analyzeText t).keywords.map Prod.fst).Nodup ∧
    (analyzeText t).entities.Nodup ∧
    (analyzeText t).actions.Nodup ∧
    List.Sublist (analyzeText t).emotions EMOTION_ORDER ∧
    (∀ t' : String,
      (∀ entry ∈ EMOTION_LEX,
        emotionHit (pyLower t) entry = emotionHit (pyLower t') entry) →
      (analyzeText t).emotions = (analyzeText t').emotions) := by
  refine ⟨extractKeywords_keys_nodup t 25, ?_, extractActions_nodup t 20,
    ?_, ?_⟩
  · show (extractEntities t).Nodup
    unfold extractEntities
    exact (List.take_sublist _ _).nodup (dedupe_nodup _)
  · show List.Sublist (extractEmotions t) EMOTION_ORDER
    simp only [extractEmotions]
    exact List.filter_sublist EMOTION_ORDER
  · intro t' hsame
    have hfil : EMOTION_LEX.filter (emotionHit (pyLower t)) =
        EMOTION_LEX.filter (emotionHit (pyLower t')) :=
      List.filter_congr hsame
    show extractEmotions t = extractEmotions t'
    simp only [extractEmotions]
    rw [hfil]

/-- C6 witness: the trigger-location-independence part at two concrete
texts that match exactly the same lexicon entries. -/
theorem C6_witness :
    (analyzeText "Joyful morning").emotions =
      (analyzeText "A morning of joy").emotions :=
  (C6_analysis_invariants "Joyful morning").2.2.2.2 "A morning of joy"
    (by decide)

/-! ### C5: characterisation of the RAKE-style phrase scorer -/

theorem strToList_append (a b : String) :
    (a ++ b).toList = a.toList ++ b.toList := by
  cases a
  cases b
  rfl

theorem strToList_inj {a b : String} (h : a.toList = b.toList) : a = b := by
  cases a
  cases b
  simp [String.toList] at h
  rw [h]

theorem counterGet_nil (x : String) : counterGet [] x = 0 := rfl

theorem counterGet_cons (p : String × Nat) (c : List (String × Nat))
    (x : String) :
    counterGet (p :: c) x = if p.1 = x then p.2 else counterGet c x := by
  unfold counterGet
  by_cases h : p.1 = x
  · rw [List.find?_cons_of_pos _ (by simpa using h), if_pos h]
    rfl
  · rw [List.find?_cons_of_neg _ (by simpa using h), if_neg h]

theorem counterGet_map_update (c : List (String × Nat)) (k x : String)
    (n : Nat) :
    counterGet (c.map (fun p => if p.1 = k then (p.1, p.2 + n) else p)) x =
      if x = k ∧ c.any (fun p => p.1 = k) then counterGet c x + n
      else counterGet c x := by
  induction c with
  | nil => simp [counterGet_nil]
  | cons p c ih =>
    rw [List.map_cons, counterGet_cons, counterGet_cons]
    by_cases hpk : p.1 = k <;> by_cases hx : p.1 = x
    · have hxk : x = k := hx ▸ hpk
      simp [hpk, hx, hxk]
    · have hxk : ¬ x = k := fun he => hx (he ▸ hpk)
      have hkx : ¬ k = x := fun he => hxk he.symm
      simp [hpk, hx, hxk, hkx, ih]
    · have hxk : ¬ x = k := fun he => hpk (he ▸ hx)
      simp [hpk, hx, hxk]
    · simp [hpk, hx, ih]
      rw [decide_eq_false hpk, Bool.false_or]

theorem counterGet_append_singleton (c : List (String × Nat)) (k x : String)
    (n : Nat) (hany : ¬ c.any (fun p => p.1 = k)) :
    counterGet (c ++ [(k, n)]) x =
      if x = k then counterGet c x + n else counterGet c x := by
  induction c with
  | nil =>
    rw [List.nil_append, counterGet_cons, counterGet_nil]
    by_cases hx : x = k
    · simp [hx]
    · have hkx : ¬ k = x := fun he => hx he.symm
      simp [hx, hkx]
  | cons p c ih =>
    have hpk : ¬ p.1 = k := by
      intro he
      exact hany (by simp [List.any_cons, he])
    have hany' : ¬ c.any (fun p => p.1 = k) := by
      intro hc
      exact hany (by simp [List.any_cons, hc])
    rw [List.cons_append, counterGet_cons, counterGet_cons]
    by_cases hx : p.1 = x
    · have hxk : ¬ x = k := fun he => hpk (he ▸ hx)
      simp [hx, hxk]
    · simp [hx, ih hany']

/-- `Counter.__getitem__` after `c[k] += n` -/
theorem counterGet_counterAdd (c : List (String × Nat)) (k x : String)
    (n : Nat) :
    counterGet (counterAdd c k n) x =
      if x = k then counterGet c x + n else counterGet c x := by
  unfold counterAdd
  split
  next hany =>
    rw [counterGet_map_update]
    by_cases hx : x = k
    · rw [if_pos ⟨hx, hany⟩, if_pos hx]
    · rw [if_neg (fun h => hx h.1), if_neg hx]
  next hany => exact counterGet_append_singleton c k x n hany

theorem dictGetQ_nil (x : String) : dictGetQ [] x = 0 := rfl

theorem dictGetQ_cons (p : String × ℚ) (d : List (String × ℚ)) (x : String) :
    dictGetQ (p :: d) x = if p.1 = x then p.2 else dictGetQ d x := by
  unfold dictGetQ
  by_cases h : p.1 = x
  · rw [List.find?_cons_of_pos _ (by simpa using h), if_pos h]
    rfl
  · rw [List.find?_cons_of_neg _ (by simpa using h), if_neg h]

theorem dictGetQ_map_set (d : List (String × ℚ)) (k x : String) (v : ℚ) :
    dictGetQ (d.map (fun p => if p.1 = k then (p.1, v) else p)) x =
      if x = k ∧ d.any (fun p => p.1 = k) then v else dictGetQ d x := by
  induction d with
  | nil => simp [dictGetQ_nil]
  | cons p d ih =>
    rw [List.map_cons, dictGetQ_cons, dictGetQ_cons]
    by_cases hpk : p.1 = k <;> by_cases hx : p.1 = x
    · have hxk : x = k := hx ▸ hpk
      simp [hpk, hx, hxk]
    · have hxk : ¬ x = k := fun he => hx (he ▸ hpk)
      have hkx : ¬ k = x := fun he => hxk he.symm
      simp [hpk, hx, hxk, hkx, ih]
    · have hxk : ¬ x = k := fun he => hpk (he ▸ hx)
      simp [hpk, hx, hxk]
    · simp [hpk, hx, ih]
      rw [decide_eq_false hpk, Bool.false_or]

theorem dictGetQ_append_singleton (d : List (String × ℚ)) (k x : String)
    (v : ℚ) (hany : ¬ d.any (fun p => p.1 = k)) :
    dictGetQ (d ++ [(k, v)]) x = if x = k then v else dictGetQ d x := by
  induction d with
  | nil =>
    rw [List.nil_append, dictGetQ_cons, dictGetQ_nil]
    by_cases hx : x = k
    · simp [hx]
    · have hkx : ¬ k = x := fun he => hx he.symm
      simp [hx, hkx]
  | cons p d ih =>
    have hpk : ¬ p.1 = k := by
      intro he
      exact hany (by simp [List.any_cons, he])
    have hany' : ¬ d.any (fun p => p.1 = k) := by
      intro hc
      exact hany (by simp [List.any_cons, hc])
    rw [List.cons_append, dictGetQ_cons, dictGetQ_cons]
    by_cases hx : p.1 = x
    · have hxk : ¬ x = k := fun he => hpk (he ▸ hx)
      simp [hx, hxk]
    · simp [hx, ih hany']

/-- Dict lookup after the assignment `d[k] = v`. -/
theorem dictGetQ_dictUpd (d : List (String × ℚ)) (k x : String) (v : ℚ) :
    dictGetQ (dictUpd d k v) x = if x = k then v else dictGetQ d x := by
  unfold dictUpd
  split
  next hany =>
    rw [dictGetQ_map_set]
    by_cases hx : x = k
    · rw [if_pos ⟨hx, hany⟩, if_pos hx]
    · rw [if_neg (fun h => hx h.1), if_neg hx]
  next hany => exact dictGetQ_append_singleton d k x v hany

/-- `joinSpace` on a list of at least two elements. -/
theorem joinSpace_cons_cons (w v : String) (ws : List String) :
    joinSpace (w :: v :: ws) = w ++ " " ++ joinSpace (v :: ws) := rfl

theorem append_space_inj : ∀ {a b u v : List Char},
    ' ' ∉ a → ' ' ∉ b → a ++ ' ' :: u = b ++ ' ' :: v → a = b ∧ u = v := by
  intro a
  induction a with
  | nil =>
    intro b u v _ hb h
    cases b with
    | nil => simpa using h
    | cons c b =>
      rw [List.nil_append, List.cons_append] at h
      have hc : c = ' ' := (List.cons.injEq .. ▸ h).1.symm
      exact absurd (hc ▸ List.mem_cons_self c b) hb
  | cons c a ih =>
    intro b u v ha hb h
    cases b with
    | nil =>
      rw [List.cons_append, List.nil_append] at h
      have hc : c = ' ' := (List.cons.injEq .. ▸ h).1
      exact absurd (hc ▸ List.mem_cons_self c a) ha
    | cons c' b =>
      rw [List.cons_append, List.cons_append] at h
      obtain ⟨hcc, hrest⟩ := List.cons.injEq .. ▸ h
      obtain ⟨hab, huv⟩ := ih (fun hm => ha (List.mem_cons_of_mem c hm))
        (fun hm => hb (List.mem_cons_of_mem c' hm)) hrest
      exact ⟨by rw [hcc, hab], huv⟩

/-- `" ".join` is injective on lists of nonempty space-free words. -/
theorem joinSpace_inj : ∀ (l1 l2 : List String),
    (∀ w ∈ l1, w ≠ "" ∧ ' ' ∉ w.toList) →
    (∀ w ∈ l2, w ≠ "" ∧ ' ' ∉ w.toList) →
    joinSpace l1 = joinSpace l2 → l1 = l2 := by
  intro l1
  induction l1 with
  | nil =>
    intro l2 _ h2 h
    cases l2 with
    | nil => rfl
    | cons w ws =>
      exfalso
      cases ws with
      | nil =>
        simp only [joinSpace] at h
        exact (h2 w (List.mem_cons_self w [])).1 h.symm
      | cons v vs =>
        rw [joinSpace, joinSpace_cons_cons] at h
        have := congrArg String.toList h
        rw [strToList_append, strToList_append] at this
        simp at this
  | cons w1 t1 ih =>
    intro l2 h1 h2 h
    cases l2 with
    | nil =>
      exfalso
      cases t1 with
      | nil => exact (h1 w1 (List.mem_cons_self w1 [])).1 (by
          simp only [joinSpace] at h
          exact h)
      | cons v vs =>
        rw [joinSpace_cons_cons, joinSpace] at h
        have := congrArg String.toList h
        rw [strToList_append, strToList_append] at this
        simp at this
    | cons w2 t2 =>
      cases t1 with
      | nil =>
        cases t2 with
        | nil =>
          simp only [joinSpace] at h
          rw [h]
        | cons v2 r2 =>
          exfalso
          simp only [joinSpace, joinSpace_cons_cons] at h
          have hl := congrArg String.toList h
          rw [strToList_append, strToList_append] at hl
          have hsp : ' ' ∈ w1.toList := by
            rw [hl, List.append_assoc]
            exact List.mem_append.mpr (Or.inr (List.mem_append.mpr
              (Or.inl (by decide))))
          exact (h1 w1 (List.mem_cons_self w1 [])).2 hsp
      | cons v1 r1 =>
        cases t2 with
        | nil =>
          exfalso
          simp only [joinSpace, joinSpace_cons_cons] at h
          have hl := congrArg String.toList h
          rw [strToList_append, strToList_append] at hl
          have hsp : ' ' ∈ w2.toList := by
            rw [← hl, List.append_assoc]
            exact List.mem_append.mpr (Or.inr (List.mem_append.mpr
              (Or.inl (by decide))))
          exact (h2 w2 (List.mem_cons_self w2 _)).2 hsp
        | cons v2 r2 =>
          rw [joinSpace_cons_cons, joinSpace_cons_cons] at h
          have hl := congrArg String.toList h
          rw [strToList_append, strToList_append, strToList_append,
            strToList_append] at hl
          simp only [List.append_assoc] at hl
          have hsp : (" " : String).toList = [' '] := rfl
          rw [hsp] at hl
          simp only [List.singleton_append] at hl
          obtain ⟨hw, ht⟩ := append_space_inj
            (h1 w1 (List.mem_cons_self w1 _)).2
            (h2 w2 (List.mem_cons_self w2 _)).2 hl
          have hww : w1 = w2 := strToList_inj hw
          have htt : v1 :: r1 = v2 :: r2 :=
            ih (v2 :: r2)
              (fun x hx => h1 x (List.mem_cons_of_mem w1 hx))
              (fun x hx => h2 x (List.mem_cons_of_mem w2 hx))
              (strToList_inj ht)
          rw [hww, htt]

/-- The claim's frequency formula: `w`'s occurrences across all phrases,
counted once per occurrence (repeats inside one phrase included). -/
def occCount (phrases : List (List String)) (w : String) : Nat :=
  (phrases.map (fun ph => ph.count w)).sum

/-- The claim's degree formula: `(phrase length − 1)` accumulated once
per occurrence of `w`. -/
def degSum (phrases : List (List String)) (w : String) : Nat :=
  (phrases.map (fun ph => ph.count w * (ph.length - 1))).sum

theorem scoreLoop_inner_get (d : Nat) (x : String) (ws : List String) :
    ∀ fd : List (String × Nat) × List (String × Nat),
      counterGet ((ws.foldl
          (fun fd w => (counterAdd fd.1 w 1, counterAdd fd.2 w d)) fd).1) x =
        counterGet fd.1 x + ws.count x ∧
      counterGet ((ws.foldl
          (fun fd w => (counterAdd fd.1 w 1, counterAdd fd.2 w d)) fd).2) x =
        counterGet fd.2 x + ws.count x * d := by
  induction ws with
  | nil => intro fd; simp
  | cons w ws ih =>
    intro fd
    rw [List.foldl_cons]
    obtain ⟨ih1, ih2⟩ := ih (counterAdd fd.1 w 1, counterAdd fd.2 w d)
    constructor
    · rw [ih1]
      show counterGet (counterAdd fd.1 w 1) x + _ = _
      rw [counterGet_counterAdd, List.count_cons]
      by_cases hx : x = w
      · rw [if_pos hx]
        simp [hx]
        omega
      · have hwx : ¬ w = x := fun he => hx he.symm
        rw [if_neg hx]
        simp [hx, hwx]
    · rw [ih2]
      show counterGet (counterAdd fd.2 w d) x + _ = _
      rw [counterGet_counterAdd, List.count_cons]
      by_cases hx : x = w
      · rw [if_pos hx]
        simp [hx]
        ring
      · have hwx : ¬ w = x := fun he => hx he.symm
        rw [if_neg hx]
        simp [hx, hwx]

theorem scoreLoop_get (phrases : List (List String)) (x : String) :
    counterGet (scoreLoop phrases).1 x =
      (phrases.map (fun ph => (ph.filter (fun w => w ≠ "")).count x)).sum ∧
    counterGet (scoreLoop phrases).2 x =
      (phrases.map (fun ph =>
        (ph.filter (fun w => w ≠ "")).count x * (ph.length - 1))).sum := by
  have haux : ∀ (phs : List (List String))
      (fd : List (String × Nat) × List (String × Nat)),
      counterGet ((phs.foldl
          (fun fd ph => (ph.filter (fun w => w ≠ "")).foldl
            (fun fd w => (counterAdd fd.1 w 1, counterAdd fd.2 w (ph.length - 1)))
            fd) fd).1) x =
        counterGet fd.1 x +
          (phs.map (fun ph => (ph.filter (fun w => w ≠ "")).count x)).sum ∧
      counterGet ((phs.foldl
          (fun fd ph => (ph.filter (fun w => w ≠ "")).foldl
            (fun fd w => (counterAdd fd.1 w 1, counterAdd fd.2 w (ph.length - 1)))
            fd) fd).2) x =
        counterGet fd.2 x +
          (phs.map (fun ph =>
            (ph.filter (fun w => w ≠ "")).count x * (ph.length - 1))).sum := by
    intro phs
    induction phs with
    | nil => intro fd; simp
    | cons ph phs ih =>
      intro fd
      rw [List.foldl_cons]
      obtain ⟨ih1, ih2⟩ := ih ((ph.filter (fun w => w ≠ "")).foldl
        (fun fd w => (counterAdd fd.1 w 1, counterAdd fd.2 w (ph.length - 1)))
        fd)
      obtain ⟨hin1, hin2⟩ := scoreLoop_inner_get (ph.length - 1) x
        (ph.filter (fun w => w ≠ "")) fd
      constructor
      · rw [ih1, hin1, List.map_cons, List.sum_cons]
        omega
      · rw [ih2, hin2, List.map_cons, List.sum_cons]
        omega
  have h := haux phrases ([], [])
  simpa [scoreLoop, counterGet_nil] using h

theorem mem_keys_of_counterGet_pos (c : List (String × Nat)) (x : String)
    (h : 1 ≤ counterGet c x) : x ∈ c.map Prod.fst := by
  unfold counterGet at h
  cases hf : c.find? (fun p => p.1 = x) with
  | none => rw [hf] at h; simp at h
  | some p =>
    have hp := List.find?_some hf
    have hmem := List.mem_of_find?_eq_some hf
    exact List.mem_map.mpr ⟨p, hmem, by simpa using hp⟩

theorem dictGetQ_wordScores (freq : List (String × Nat)) (x : String) :
    ∀ degree : List (String × Nat), x ∈ freq.map Prod.fst →
    dictGetQ (wordScores freq degree) x =
      ((counterGet degree x + counterGet freq x : ℕ) : ℚ) /
      ((if counterGet freq x = 0 then 1 else counterGet freq x : ℕ) : ℚ) := by
  induction freq with
  | nil => intro degree hx; simp at hx
  | cons p freq ih =>
    intro degree hx
    unfold wordScores
    rw [List.map_cons, dictGetQ_cons, counterGet_cons]
    by_cases hp : p.1 = x
    · rw [if_pos hp, if_pos hp, hp]
    · rw [if_neg hp, if_neg hp]
      have hx' : x ∈ freq.map Prod.fst := by
        rcases List.mem_map.mp hx with ⟨q, hq, hqx⟩
        rcases List.mem_cons.mp hq with hq0 | hqr
        · exact absurd (hq0 ▸ hqx) hp
        · exact List.mem_map.mpr ⟨q, hqr, hqx⟩
      exact ih degree hx'

theorem foldl_add_map (g : String → ℚ) (l : List String) :
    ∀ a : ℚ, l.foldl (fun s w => s + g w) a = a + (l.map g).sum := by
  induction l with
  | nil => intro a; simp
  | cons w l ih =>
    intro a
    rw [List.foldl_cons, ih (a + g w), List.map_cons, List.sum_cons]
    ring

theorem dictFold_get_notmem (v : List String → ℚ) (l : List (List String))
    (x : String) (hnot : ∀ ph ∈ l, joinSpace ph ≠ x) :
    ∀ d, dictGetQ
      (l.foldl (fun d q => dictUpd d (joinSpace q) (v q)) d) x =
      dictGetQ d x := by
  induction l with
  | nil => intro d; rfl
  | cons p0 rest ih =>
    intro d
    rw [List.foldl_cons,
      ih (fun q hq => hnot q (List.mem_cons_of_mem p0 hq)),
      dictGetQ_dictUpd,
      if_neg (fun he => hnot p0 (List.mem_cons_self p0 rest) he.symm)]

/-- The value stored in the phrase dict at key `" ".join(ph)` is `v ph`,
whenever `" ".join` separates the listed phrases. -/
theorem dictFold_get (v : List String → ℚ) :
    ∀ l : List (List String),
    (∀ ph1 ∈ l, ∀ ph2 ∈ l, joinSpace ph1 = joinSpace ph2 → ph1 = ph2) →
    ∀ ph ∈ l, ∀ d,
      dictGetQ (l.foldl (fun d q => dictUpd d (joinSpace q) (v q)) d)
        (joinSpace ph) = v ph := by
  intro l
  induction l with
  | nil => intro _ ph h; cases h
  | cons p0 rest ih =>
    intro hinj ph hph d
    rw [List.foldl_cons]
    by_cases hmem : ph ∈ rest
    · exact ih
        (fun q1 hq1 q2 hq2 => hinj q1 (List.mem_cons_of_mem p0 hq1)
          q2 (List.mem_cons_of_mem p0 hq2))
        ph hmem _
    · have hph0 : ph = p0 := by
        rcases List.mem_cons.mp hph with h | h
        · exact h
        · exact absurd h hmem
      subst hph0
      have hnot : ∀ q ∈ rest, joinSpace q ≠ joinSpace ph := by
        intro q hq he
        have : q = ph := hinj q (List.mem_cons_of_mem ph hq) ph hph he
        exact hmem (this ▸ hq)
      rw [dictFold_get_notmem v rest _ hnot _, dictGetQ_dictUpd, if_pos rfl]

/-- C5: the phrase scorer computes, for every occurring word, frequency =
per-occurrence count, degree = per-occurrence sum of (phrase length − 1),
word score = (degree + frequency) / frequency, and for every candidate
phrase a stored phrase score equal to the sum of its words' scores with
multiplicity.  The hypothesis states that the words are candidate-phrase
tokens: nonempty and space-free. -/
theorem C5_scorer_characterisation (phrases : List (List String))
    (hwords : ∀ ph ∈ phrases, ∀ w ∈ ph, w ≠ "" ∧ ' ' ∉ w.toList) :
    (∀ w : String, (∃ ph ∈ phrases, w ∈ ph) →
      counterGet (scoreLoop phrases).1 w = occCount phrases w ∧
      counterGet (scoreLoop phrases).2 w = degSum phrases w ∧
      dictGetQ (wordScores (scoreLoop phrases).1 (scoreLoop phrases).2) w =
        ((degSum phrases w + occCount phrases w : ℕ) : ℚ) /
        ((occCount phrases w : ℕ) : ℚ)) ∧
    (∀ ph ∈ phrases,
      dictGetQ (scorePhrases phrases) (joinSpace ph) =
        (ph.map (fun w =>
          ((degSum phrases w + occCount phrases w : ℕ) : ℚ) /
          ((occCount phrases w : ℕ) : ℚ))).sum) := by
  have hfe : ∀ ph ∈ phrases, ph.filter (fun w => w ≠ "") = ph := by
    intro ph hph
    apply List.filter_eq_self.mpr
    intro w hw
    simpa using (hwords ph hph w hw).1
  have hfreq : ∀ w, counterGet (scoreLoop phrases).1 w = occCount phrases w := by
    intro w
    rw [(scoreLoop_get phrases w).1]
    unfold occCount
    congr 1
    apply List.map_congr_left
    intro ph hph
    rw [hfe ph hph]
  have hdeg : ∀ w, counterGet (scoreLoop phrases).2 w = degSum phrases w := by
    intro w
    rw [(scoreLoop_get phrases w).2]
    unfold degSum
    congr 1
    apply List.map_congr_left
    intro ph hph
    rw [hfe ph hph]
  have hocc : ∀ w, (∃ ph ∈ phrases, w ∈ ph) → 1 ≤ occCount phrases w := by
    rintro w ⟨ph, hph, hw⟩
    have h1 : 1 ≤ ph.count w := List.count_pos_iff.mpr hw
    have h2 : ph.count w ≤ occCount phrases w :=
      List.single_le_sum (fun x _ => Nat.zero_le x) _
        (List.mem_map.mpr ⟨ph, hph, rfl⟩)
    omega
  have hword : ∀ w : String, (∃ ph ∈ phrases, w ∈ ph) →
      dictGetQ (wordScores (scoreLoop phrases).1 (scoreLoop phrases).2) w =
        ((degSum phrases w + occCount phrases w : ℕ) : ℚ) /
        ((occCount phrases w : ℕ) : ℚ) := by
    intro w hex
    have hkey : w ∈ (scoreLoop phrases).1.map Prod.fst :=
      mem_keys_of_counterGet_pos _ w (by rw [hfreq]; exact hocc w hex)
    rw [dictGetQ_wordScores (scoreLoop phrases).1 w (scoreLoop phrases).2 hkey,
      hfreq, hdeg, if_neg (by have := hocc w hex; omega)]
  refine ⟨fun w hex => ⟨hfreq w, hdeg w, hword w hex⟩, ?_⟩
  intro ph hph
  have hinj : ∀ ph1 ∈ phrases, ∀ ph2 ∈ phrases,
      joinSpace ph1 = joinSpace ph2 → ph1 = ph2 :=
    fun ph1 h1 ph2 h2 he =>
      joinSpace_inj ph1 ph2 (hwords ph1 h1) (hwords ph2 h2) he
  have hmain := dictFold_get
    (fun q => q.foldl
      (fun s w => s + dictGetQ
        (wordScores (scoreLoop phrases).1 (scoreLoop phrases).2) w) 0)
    phrases hinj ph hph []
  show dictGetQ
      (phrases.foldl (fun d q => dictUpd d (joinSpace q)
        (q.foldl (fun s w => s + dictGetQ
          (wordScores (scoreLoop phrases).1 (scoreLoop phrases).2) w) 0)) [])
      (joinSpace ph) = _
  rw [hmain, foldl_add_map, zero_add]
  apply congrArg
  apply List.map_congr_left
  intro w hw
  exact hword w ⟨ph, hph, hw⟩

/-- C5 witness: the characterisation applied to concrete phrases
`[["deep", "river"], ["deep"]]` and the first phrase. -/
theorem C5_witness :
    dictGetQ (scorePhrases [["deep", "river"], ["deep"]])
      (joinSpace ["deep", "river"]) =
      ((["deep", "river"].map (fun w =>
        ((degSum [["deep", "river"], ["deep"]] w +
          occCount [["deep", "river"], ["deep"]] w : ℕ) : ℚ) /
        ((occCount [["deep", "river"], ["deep"]] w : ℕ) : ℚ))).sum) :=
  (C5_scorer_characterisation [["deep", "river"], ["deep"]]
    (by decide)).2 ["deep", "river"] (by decide)

/-! ### C10: shape of the extracted entities -/

/-- One word of the entity pattern: one uppercase letter followed by one
or more lowercase letters. -/
def IsCapWord (l : List Char) : Prop :=
  ∃ c ls, l = c :: ls ∧ isUpperCh c ∧ ls ≠ [] ∧ ∀ x ∈ ls, isLowerCh x

/-- One `(?:\s+[A-Z][a-z]+)` iteration: whitespace then a cap-word. -/
def IsIter (l : List Char) : Prop :=
  ∃ ws w, l = ws ++ w ∧ ws ≠ [] ∧ (∀ x ∈ ws, pyIsSpace x) ∧ IsCapWord w

/-- The whole entity shape: a cap-word followed by whitespace-separated
further cap-words. -/
def EntityShape (l : List Char) : Prop :=
  ∃ w its, l = w ++ List.flatten its ∧ IsCapWord w ∧ ∀ i ∈ its, IsIter i

/-- The claim's literal output format: words joined by single spaces,
each one uppercase letter then lowercase letters. -/
def SingleSpaceSeparated (s : String) : Prop :=
  ∃ parts : List String, parts ≠ [] ∧ (∀ w ∈ parts, IsCapWord w.toList) ∧
    s = joinSpace parts

theorem space_cases {c : Char} (h : pyIsSpace c) :
    c = ' ' ∨ c = '\t' ∨ c = '\n' ∨ c = '\x0d' ∨ c = '\x0b' ∨ c = '\x0c' := by
  unfold pyIsSpace at h
  simp only [Bool.or_eq_true, decide_eq_true_eq] at h
  tauto

theorem upper_not_space {c : Char} (h : isUpperCh c) : ¬ pyIsSpace c := by
  intro hs
  rcases space_cases hs with h' | h' | h' | h' | h' | h' <;>
    (subst h'; exact absurd h (by decide))

theorem lower_not_space {c : Char} (h : isLowerCh c) : ¬ pyIsSpace c := by
  intro hs
  rcases space_cases hs with h' | h' | h' | h' | h' | h' <;>
    (subst h'; exact absurd h (by decide))

theorem lower_not_upper {c : Char} (h : isLowerCh c) : ¬ isUpperCh c := by
  unfold isLowerCh at h
  unfold isUpperCh
  simp only [decide_eq_true_eq, Char.le_def] at *
  intro h2
  have h1 : ('a' : Char).val.toNat ≤ c.val.toNat := h.1
  have h2' : c.val.toNat ≤ ('Z' : Char).val.toNat := h2.2
  have ha : ('a' : Char).val.toNat = 97 := by decide
  have hz : ('Z' : Char).val.toNat = 90 := by decide
  omega

theorem space_toUpper {c : Char} (h : pyIsSpace c) : c.toUpper = c := by
  rcases space_cases h with h' | h' | h' | h' | h' | h' <;>
    (subst h'; decide)

theorem toNat_ofNat_small {n : Nat} (h : n < 55296) :
    (Char.ofNat n).toNat = n := by
  unfold Char.ofNat
  rw [dif_pos (Or.inl h)]
  unfold Char.ofNatAux Char.toNat
  simp [UInt32.toNat]

theorem upper_toUpper {c : Char} (h : isUpperCh c) : c.toUpper = c := by
  unfold isUpperCh at h
  simp only [decide_eq_true_eq, Char.le_def] at h
  unfold Char.toUpper
  rw [if_neg]
  intro hcon
  have hz : c.val.toNat ≤ ('Z' : Char).val.toNat := h.2
  have : ('Z' : Char).val.toNat = 90 := by decide
  unfold Char.toNat at hcon
  omega

theorem lower_toUpper_inj {a b : Char} (ha : isLowerCh a) (hb : isLowerCh b)
    (h : a.toUpper = b.toUpper) : a = b := by
  unfold isLowerCh at ha hb
  simp only [decide_eq_true_eq, Char.le_def] at ha hb
  unfold Char.toUpper at h
  have ha1 : ('a' : Char).val.toNat ≤ a.val.toNat := ha.1
  have ha2 : a.val.toNat ≤ ('z' : Char).val.toNat := ha.2
  have hb1 : ('a' : Char).val.toNat ≤ b.val.toNat := hb.1
  have hb2 : b.val.toNat ≤ ('z' : Char).val.toNat := hb.2
  have hca : ('a' : Char).val.toNat = 97 := by decide
  have hcz : ('z' : Char).val.toNat = 122 := by decide
  have ha' : 97 ≤ Char.toNat a ∧ Char.toNat a ≤ 122 := by
    unfold Char.toNat
    omega
  have hb' : 97 ≤ Char.toNat b ∧ Char.toNat b ≤ 122 := by
    unfold Char.toNat
    omega
  rw [if_pos ha', if_pos hb'] at h
  have hval : Char.toNat a - 32 = Char.toNat b - 32 := by
    have h1 := toNat_ofNat_small (n := Char.toNat a - 32) (by omega)
    have h2 := toNat_ofNat_small (n := Char.toNat b - 32) (by omega)
    rw [← h1, ← h2, h]
  have htn : Char.toNat a = Char.toNat b := by omega
  have hv : a.val = b.val := by
    unfold Char.toNat at htn
    exact UInt32.ext htn
  exact Char.ext hv

theorem lowerList_toUpper_inj : ∀ (l1 l2 : List Char),
    (∀ x ∈ l1, isLowerCh x) → (∀ x ∈ l2, isLowerCh x) →
    l1.map Char.toUpper = l2.map Char.toUpper → l1 = l2 := by
  intro l1
  induction l1 with
  | nil =>
    intro l2 _ _ h
    cases l2 with
    | nil => rfl
    | cons c l => simp at h
  | cons c1 t1 ih =>
    intro l2 h1 h2 h
    cases l2 with
    | nil => simp at h
    | cons c2 t2 =>
      simp only [List.map_cons, List.cons.injEq] at h
      have hc := lower_toUpper_inj (h1 c1 (List.mem_cons_self c1 t1))
        (h2 c2 (List.mem_cons_self c2 t2)) h.1
      have ht := ih t2 (fun x hx => h1 x (List.mem_cons_of_mem c1 hx))
        (fun x hx => h2 x (List.mem_cons_of_mem c2 hx)) h.2
      rw [hc, ht]

theorem capUpper_inj {l1 l2 : List Char} (h1 : IsCapWord l1)
    (h2 : IsCapWord l2) (h : l1.map Char.toUpper = l2.map Char.toUpper) :
    l1 = l2 := by
  obtain ⟨c1, ls1, rfl, hu1, -, hl1⟩ := h1
  obtain ⟨c2, ls2, rfl, hu2, -, hl2⟩ := h2
  simp only [List.map_cons, List.cons.injEq] at h
  have hc : c1 = c2 := by
    rw [← upper_toUpper hu1, ← upper_toUpper hu2]
    exact h.1
  rw [hc, lowerList_toUpper_inj ls1 ls2 hl1 hl2 h.2]

theorem matchIter_shape {s : List Char} {p : List Char × List Char}
    (h : matchIter s = some p) : IsIter p.1 := by
  simp only [matchIter] at h
  split at h
  · cases h
  next hws =>
    split at h
    · cases h
    next c rest hd =>
      split at h
      next hu =>
        split at h
        · cases h
        next hl =>
          cases h
          exact ⟨s.takeWhile pyIsSpace, c :: rest.takeWhile isLowerCh, rfl,
            hws, fun x hx => List.mem_takeWhile_imp hx,
            c, rest.takeWhile isLowerCh, rfl, hu, hl,
            fun x hx => List.mem_takeWhile_imp hx⟩
      · cases h

theorem matchItersF_shape (fuel : Nat) : ∀ (s : List Char) (m : List Char),
    m ∈ (matchItersF fuel s).1 → IsIter m := by
  induction fuel with
  | zero => intro s m h; cases h
  | succ fuel ih =>
    intro s m h
    rw [matchItersF] at h
    cases he : matchIter s with
    | some p =>
      rw [he] at h
      dsimp only at h
      rcases List.mem_cons.mp h with h | h
      · exact h ▸ matchIter_shape he
      · exact ih p.2 m h
    | none =>
      rw [he] at h
      cases h

theorem matchEntityAt_shape {b : Bool} {s : List Char}
    {p : List Char × List Char} (h : matchEntityAt b s = some p) :
    EntityShape p.1 := by
  simp only [matchEntityAt] at h
  split at h
  · cases h
  split at h
  · cases h
  next c rest =>
    split at h
    swap
    · cases h
    next hu =>
      split at h
      · cases h
      next hl =>
        have hcap : IsCapWord (c :: rest.takeWhile isLowerCh) :=
          ⟨c, rest.takeWhile isLowerCh, rfl, hu, hl,
            fun x hx => List.mem_takeWhile_imp hx⟩
        split at h
        · cases h
          exact ⟨c :: rest.takeWhile isLowerCh,
            (matchIters (rest.dropWhile isLowerCh)).1, rfl, hcap,
            fun i hi => matchItersF_shape _ _ i hi⟩
        · split at h
          · cases h
          next last hlast =>
            cases h
            exact ⟨c :: rest.takeWhile isLowerCh,
              (matchIters (rest.dropWhile isLowerCh)).1.dropLast, rfl, hcap,
              fun i hi => matchItersF_shape _ _ i
                (List.dropLast_subset _ hi)⟩

theorem findAllEntitiesF_shape (fuel : Nat) :
    ∀ (b : Bool) (s : List Char) (m : List Char),
    m ∈ findAllEntitiesF fuel b s → EntityShape m := by
  induction fuel with
  | zero => intro b s m h; cases h
  | succ fuel ih =>
    intro b s m h
    rw [findAllEntitiesF.eq_def] at h
    cases s with
    | nil => simp at h
    | cons c rest =>
      dsimp only at h
      cases he : matchEntityAt b (c :: rest) with
      | some p =>
        rw [he] at h
        rcases List.mem_cons.mp h with h | h
        · exact h ▸ matchEntityAt_shape he
        · exact ih true p.2 m h
      | none =>
        rw [he] at h
        exact ih (isWordCh c) rest m h

theorem capWord_ne_nil {w : List Char} (h : IsCapWord w) : w ≠ [] := by
  obtain ⟨c, ls, rfl, -, -, -⟩ := h
  simp

theorem capWord_last {w : List Char} (h : IsCapWord w) :
    ∃ c, w.getLast? = some c ∧ isLowerCh c := by
  obtain ⟨c, ls, rfl, -, hne, hlow⟩ := h
  have hcne : c :: ls ≠ [] := by simp
  refine ⟨(c :: ls).getLast hcne, List.getLast?_eq_getLast _ hcne, ?_⟩
  rw [List.getLast_cons hne]
  exact hlow _ (List.getLast_mem hne)

theorem iter_last {it : List Char} (h : IsIter it) :
    ∃ c, it.getLast? = some c ∧ isLowerCh c := by
  obtain ⟨ws, w, rfl, -, -, hcap⟩ := h
  obtain ⟨c, hc, hl⟩ := capWord_last hcap
  refine ⟨c, ?_, hl⟩
  rw [List.getLast?_append_of_ne_nil ws (capWord_ne_nil hcap)]
  exact hc

theorem iter_ne_nil {it : List Char} (h : IsIter it) : it ≠ [] := by
  obtain ⟨ws, w, rfl, hne, -, -⟩ := h
  simp [hne]

theorem entityShape_last {l : List Char} (h : EntityShape l) :
    ∃ c, l.getLast? = some c ∧ isLowerCh c := by
  obtain ⟨w, its, rfl, hcap, hits⟩ := h
  rcases hlast : its.getLast? with _ | last
  · have : its = [] := List.getLast?_eq_none_iff.mp hlast
    subst this
    simp only [List.flatten_nil, List.append_nil]
    exact capWord_last hcap
  · have hsplit : its.dropLast ++ [last] = its :=
      List.dropLast_append_getLast? last (by simp [hlast, Option.mem_def])
    have hlmem : last ∈ its := by
      rw [← hsplit]
      exact List.mem_append.mpr (Or.inr (by simp))
    have hlne : last ≠ [] := iter_ne_nil (hits last hlmem)
    obtain ⟨c, hc, hl⟩ := iter_last (hits last hlmem)
    refine ⟨c, ?_, hl⟩
    rw [← hsplit, List.flatten_append, List.flatten_cons, List.flatten_nil,
      List.append_nil, ← List.append_assoc,
      List.getLast?_append_of_ne_nil _ hlne]
    exact hc

theorem entityShape_head {l : List Char} (h : EntityShape l) :
    ∃ c t, l = c :: t ∧ isUpperCh c := by
  obtain ⟨w, its, rfl, ⟨c, ls, rfl, hu, -, -⟩, -⟩ := h
  exact ⟨c, ls ++ its.flatten, by simp, hu⟩

/-- `strip()` does nothing on a string that neither starts nor ends with
whitespace. -/
theorem pyStrip_id {l : List Char}
    (hhead : ∀ c t, l = c :: t → ¬ pyIsSpace c)
    (hlast : ∀ c, l.getLast? = some c → ¬ pyIsSpace c) :
    pyStrip (List.asString l) = List.asString l := by
  unfold pyStrip
  have htl : (List.asString l).toList = l := rfl
  rw [htl]
  cases hl : l with
  | nil => rfl
  | cons c t =>
    have h1 : (c :: t).dropWhile pyIsSpace = c :: t :=
      List.dropWhile_cons_of_neg (by simpa using hhead c t hl)
    rw [h1]
    have hne : c :: t ≠ [] := by simp
    obtain ⟨x, hx⟩ : ∃ x, (c :: t).getLast? = some x :=
      ⟨(c :: t).getLast hne, List.getLast?_eq_getLast _ hne⟩
    have hxs : ¬ pyIsSpace x := hlast x (hl ▸ hx)
    have hsplit : (c :: t).dropLast ++ [x] = c :: t :=
      List.dropLast_append_getLast? x (by simp [hx, Option.mem_def])
    rw [← hsplit, List.reverse_append]
    simp only [List.reverse_cons, List.reverse_nil, List.nil_append,
      List.singleton_append]
    rw [List.dropWhile_cons_of_neg (by simpa using hxs)]
    simp

theorem dedupe_mem {l : List String} {x : String} (h : x ∈ dedupe l) :
    x ∈ l := by
  unfold dedupe at h
  have haux : ∀ (l : List String) (acc : List String),
      x ∈ l.foldl (fun acc e => if e ∈ acc then acc else acc ++ [e]) acc →
      x ∈ acc ∨ x ∈ l := by
    intro l
    induction l with
    | nil => intro acc h; exact Or.inl h
    | cons e l ih =>
      intro acc h
      rw [List.foldl_cons] at h
      rcases ih _ h with hin | hin
      · split at hin
        · exact Or.inl hin
        · rcases List.mem_append.mp hin with hin | hin
          · exact Or.inl hin
          · simp only [List.mem_singleton] at hin
            exact Or.inr (hin ▸ List.mem_cons_self e l)
      · exact Or.inr (List.mem_cons_of_mem e hin)
  rcases haux l [] h with hin | hin
  · cases hin
  · exact hin

/-- Membership in `extract_entities` output comes from a raw regex match
that survives the denylist and length filters and is then stripped. -/
theorem extractEntities_mem {text s : String} (max_n : Nat)
    (h : s ∈ extractEntities text max_n) :
    ∃ m ∈ findAllEntities false text.toList,
      s = pyStrip (List.asString m) := by
  unfold extractEntities at h
  have h1 := dedupe_mem (List.mem_of_mem_take h)
  obtain ⟨e, he, hes⟩ := List.mem_map.mp h1
  have he2 := List.mem_of_mem_filter he
  obtain ⟨m, hm, hme⟩ := List.mem_map.mp he2
  exact ⟨m, hm, by rw [← hes, ← hme]⟩

theorem extractEntities_shape {text s : String} {max_n : Nat}
    (h : s ∈ extractEntities text max_n) : EntityShape s.toList := by
  obtain ⟨m, hm, hs⟩ := extractEntities_mem max_n h
  have hshape : EntityShape m := findAllEntitiesF_shape _ _ _ m hm
  have hid : pyStrip (List.asString m) = List.asString m := by
    apply pyStrip_id
    · intro c t hct
      obtain ⟨c', t', he', hu⟩ := entityShape_head hshape
      rw [he'] at hct
      cases hct
      exact upper_not_space hu
    · intro c hc
      obtain ⟨c', hc', hl⟩ := entityShape_last hshape
      rw [hc'] at hc
      cases hc
      exact lower_not_space hl
  rw [hs, hid]
  exact hshape

/-- Every character of a single-space-joined cap-word list is a space or
a letter. -/
theorem joinSpace_chars : ∀ (parts : List String),
    (∀ w ∈ parts, IsCapWord w.toList) →
    ∀ c ∈ (joinSpace parts).toList,
      c = ' ' ∨ isUpperCh c ∨ isLowerCh c := by
  intro parts
  induction parts with
  | nil => intro _ c hc; cases hc
  | cons w ws ih =>
    intro hcap c hc
    have hw : ∀ c ∈ w.toList, isUpperCh c ∨ isLowerCh c := by
      intro c hc
      obtain ⟨c0, ls, he, hu, -, hlow⟩ := hcap w (List.mem_cons_self w ws)
      rw [he] at hc
      rcases List.mem_cons.mp hc with h | h
      · exact Or.inl (h ▸ hu)
      · exact Or.inr (hlow c h)
    cases ws with
    | nil =>
      simp only [joinSpace] at hc
      rcases hw c hc with h | h
      · exact Or.inr (Or.inl h)
      · exact Or.inr (Or.inr h)
    | cons v vs =>
      rw [joinSpace_cons_cons, strToList_append, strToList_append] at hc
      rcases List.mem_append.mp hc with hc | hc
      · rcases List.mem_append.mp hc with hc | hc
        · rcases hw c hc with h | h
          · exact Or.inr (Or.inl h)
          · exact Or.inr (Or.inr h)
        · simp only [show (" " : String).toList = [' '] from rfl,
            List.mem_singleton] at hc
          exact Or.inl hc
      · exact ih (fun x hx => hcap x (List.mem_cons_of_mem w hx)) c hc

/-- C10 (counterexample): the entity pattern's separator is `\s+`, not a
single space — on input `"Aa\tBb"` the extractor returns the string
`"Aa\tBb"` verbatim, which is not a space-separated sequence of
capitalised words. -/
theorem C10_counterexample :
    "Aa\tBb" ∈ extractEntities "Aa\tBb" ∧
    ¬ SingleSpaceSeparated "Aa\tBb" := by
  constructor
  · decide
  · rintro ⟨parts, hne, hcap, he⟩
    have ht : '\t' ∈ (joinSpace parts).toList := by
      rw [← he]
      decide
    rcases joinSpace_chars parts hcap '\t' ht with h | h | h
    · exact absurd h (by decide)
    · exact absurd h (by decide)
    · exact absurd h (by decide)

/-- C10 (amended): every extracted entity is a sequence of cap-words
(one uppercase letter then lowercase letters) separated by runs of
whitespace (`\s+`, not necessarily single spaces); consequently a
fully-uppercase token of two or more letters never appears among the
entities, and a raw match removed by the denylist is always one of the
mixed-case forms `Int`, `Ext`, `Day`, `Night`. -/
theorem C10_amended_entity_shape :
    (∀ (text s : String) (max_n : Nat), s ∈ extractEntities text max_n →
      EntityShape s.toList) ∧
    (∀ (text s : String) (max_n : Nat), s ∈ extractEntities text max_n →
      ¬ (2 ≤ s.length ∧ ∀ c ∈ s.toList, isUpperCh c)) ∧
    (∀ (text : String) (m : List Char),
      m ∈ findAllEntities false text.toList →
      pyUpper (List.asString m) ∈ ENTITY_BAN →
      List.asString m ∈ ["Int", "Ext", "Day", "Night"]) := by
  refine ⟨fun text s max_n h => extractEntities_shape h, ?_, ?_⟩
  · intro text s max_n h
    rintro ⟨-, hall⟩
    obtain ⟨w, its, he, ⟨c, ls, hw, -, hlsne, hlow⟩, -⟩ :=
      extractEntities_shape h
    obtain ⟨y, ls', rfl⟩ : ∃ y ls', ls = y :: ls' := by
      cases ls with
      | nil => exact absurd rfl hlsne
      | cons y ls' => exact ⟨y, ls', rfl⟩
    have hy : y ∈ s.toList := by
      rw [he, hw]
      exact List.mem_append.mpr (Or.inl (by simp))
    exact lower_not_upper (hlow y (by simp)) (hall y hy)
  · intro text m hm hban
    have hshape : EntityShape m := findAllEntitiesF_shape _ _ _ m hm
    obtain ⟨w, its, rfl, hcap, hits⟩ := hshape
    have hupper : pyUpper (List.asString (w ++ its.flatten)) =
        List.asString ((w ++ its.flatten).map Char.toUpper) := rfl
    -- the banned strings contain no whitespace, so there is no iteration
    have hitsnil : its = [] := by
      by_contra hne
      obtain ⟨i0, hi0⟩ : ∃ i0, i0 ∈ its := by
        cases its with
        | nil => exact absurd rfl hne
        | cons a l => exact ⟨a, List.mem_cons_self a l⟩
      obtain ⟨ws, wd, hi0e, hwsne, hwssp, -⟩ := hits i0 hi0
      obtain ⟨sp, hsp⟩ : ∃ sp, sp ∈ ws := by
        cases ws with
        | nil => exact absurd rfl hwsne
        | cons a l => exact ⟨a, List.mem_cons_self a l⟩
      have hspm : sp ∈ w ++ its.flatten := by
        refine List.mem_append.mpr (Or.inr (List.mem_flatten.mpr
          ⟨i0, hi0, ?_⟩))
        rw [hi0e]
        exact List.mem_append.mpr (Or.inl hsp)
      have hspu : sp.toUpper ∈ ((w ++ its.flatten).map Char.toUpper) :=
        List.mem_map.mpr ⟨sp, hspm, rfl⟩
      have hspsp : pyIsSpace sp.toUpper := by
        rw [space_toUpper (hwssp sp hsp)]
        exact hwssp sp hsp
      rw [hupper] at hban
      simp only [ENTITY_BAN, List.mem_cons, List.not_mem_nil, or_false]
        at hban
      have hchars : ∀ c ∈ ((w ++ its.flatten).map Char.toUpper),
          ¬ pyIsSpace c := by
        rcases hban with h | h | h | h
        · intro c hc
          have hmem : c ∈ ("INT" : String).toList := by
            rw [show ("INT" : String).toList =
              (List.asString ((w ++ its.flatten).map Char.toUpper)).toList
              from congrArg String.toList h.symm]
            exact hc
          have hcases : c = 'I' ∨ c = 'N' ∨ c = 'T' := by
            simpa using hmem
          rcases hcases with rfl | rfl | rfl <;> decide
        · intro c hc
          have hmem : c ∈ ("EXT" : String).toList := by
            rw [show ("EXT" : String).toList =
              (List.asString ((w ++ its.flatten).map Char.toUpper)).toList
              from congrArg String.toList h.symm]
            exact hc
          have hcases : c = 'E' ∨ c = 'X' ∨ c = 'T' := by
            simpa using hmem
          rcases hcases with rfl | rfl | rfl <;> decide
        · intro c hc
          have hmem : c ∈ ("DAY" : String).toList := by
            rw [show ("DAY" : String).toList =
              (List.asString ((w ++ its.flatten).map Char.toUpper)).toList
              from congrArg String.toList h.symm]
            exact hc
          have hcases : c = 'D' ∨ c = 'A' ∨ c = 'Y' := by
            simpa using hmem
          rcases hcases with rfl | rfl | rfl <;> decide
        · intro c hc
          have hmem : c ∈ ("NIGHT" : String).toList := by
            rw [show ("NIGHT" : String).toList =
              (List.asString ((w ++ its.flatten).map Char.toUpper)).toList
              from congrArg String.toList h.symm]
            exact hc
          have hcases : c = 'N' ∨ c = 'I' ∨ c = 'G' ∨ c = 'H' ∨ c = 'T' := by
            simpa using hmem
          rcases hcases with rfl | rfl | rfl | rfl | rfl <;> decide
      exact hchars sp.toUpper hspu hspsp
    subst hitsnil
    simp only [List.flatten_nil, List.append_nil] at hupper hban ⊢
    rw [hupper] at hban
    simp only [ENTITY_BAN, List.mem_cons, List.not_mem_nil, or_false] at hban
    have hmap : ∀ t : String, List.asString (w.map Char.toUpper) = t →
        w.map Char.toUpper = t.toList := by
      intro t ht
      have := congrArg String.toList ht
      exact this
    rcases hban with h | h | h | h
    · have hw : w = ("Int" : String).toList := by
        apply capUpper_inj hcap
        · exact ⟨'I', ['n', 't'], rfl, by decide, by decide, by decide⟩
        · rw [hmap "INT" h]
          rfl
      rw [hw]
      decide
    · have hw : w = ("Ext" : String).toList := by
        apply capUpper_inj hcap
        · exact ⟨'E', ['x', 't'], rfl, by decide, by decide, by decide⟩
        · rw [hmap "EXT" h]
          rfl
      rw [hw]
      decide
    · have hw : w = ("Day" : String).toList := by
        apply capUpper_inj hcap
        · exact ⟨'D', ['a', 'y'], rfl, by decide, by decide, by decide⟩
        · rw [hmap "DAY" h]
          rfl
      rw [hw]
      decide
    · have hw : w = ("Night" : String).toList := by
        apply capUpper_inj hcap
        · exact ⟨'N', ['i', 'g', 'h', 't'], rfl, by decide, by decide,
            by decide⟩
        · rw [hmap "NIGHT" h]
          rfl
      rw [hw]
      decide

/-- C10 witness: the denylist part applied to the raw match `"Int"` of a
concrete text. -/
theorem C10_witness :
    List.asString "Int".toList ∈ ["Int", "Ext", "Day", "Night"] :=
  C10_amended_entity_shape.2.2 "Int arrives" "Int".toList (by decide)
    (by decide)

end VMT
